import Mathlib

/-!
# MAADg: block-stacking session and tower export (`src/js/main.js`)

A shallow embedding of the module-level state of `main.js`, of its event
handlers `onMouseMove`, `dropBlock` and `animate`, and of `exportTowerOBJ`.

Conventions of the embedding:

* JavaScript numbers are exact rationals. Every number the handlers compute
  is a half-integer (`1.5 + 3 * n`) or a counter.
* JavaScript strings are lists of characters (`JsString`).
* The rendering and physics libraries are not part of the source. What a
  handler reads back from them is carried by the event: the result of
  `ray.intersectPlane`, the colour built from `Math.random() * 0xffffff`, and
  the poses computed by `world.step`.
-/

namespace MAADg

/-- A JavaScript string, as the list of its characters. The patterns of the
code match letters, digits and white space of the basic plane only, so it
makes no difference that a character beyond it is two code units there. -/
abbrev JsString := List Char

/-- The value of `THREE.Vector3` / `CANNON.Vec3`. -/
structure Vec3 where
  x : ℚ
  y : ℚ
  z : ℚ
  deriving DecidableEq

/-- The value of a quaternion. -/
structure Quat where
  x : ℚ
  y : ℚ
  z : ℚ
  w : ℚ
  deriving DecidableEq

/-- What the code reads from a `THREE.Color`: the channels `r`, `g`, `b` and
the value of `getHexString()`. -/
structure Color where
  r : ℚ
  g : ℚ
  b : ℚ
  hex : JsString
  deriving DecidableEq

/-- A `THREE.MeshStandardMaterial`: its colour and its `name`
(the empty string until `exportTowerOBJ` names a clone). -/
structure Material where
  color : Color
  name : JsString
  deriving DecidableEq

/-- A `THREE.Mesh` over a `BoxGeometry(size, size, size)`. -/
structure Mesh where
  position : Vec3
  quaternion : Quat
  size : ℚ
  material : Material
  deriving DecidableEq

/-- A `CANNON.Body` carrying one `CANNON.Box` shape. `initPosition` is the
position the body has when `world.addBody` takes it in, which the world
records in the body and no step changes. -/
structure Body where
  position : Vec3
  quaternion : Quat
  mass : ℚ
  halfExtents : Vec3
  initPosition : Vec3
  deriving DecidableEq

/-- The module-level variables of `main.js` that the handlers read or write,
with the text of the `#score` element. -/
structure State where
  blocks : List Mesh
  bodies : List Body
  currentY : ℚ
  score : Nat
  targetDropPosition : Vec3
  previewCube : Option Mesh
  scoreText : JsString
  deriving DecidableEq

/-- Line 9: `cubeSize = 3`, never reassigned. -/
def cubeSize : ℚ := 3

/-- The identity rotation a new object starts with. -/
def Quat.identity : Quat := ⟨0, 0, 0, 1⟩

/-- The value of `new THREE.Vector3()`. -/
def Vec3.zero : Vec3 := ⟨0, 0, 0⟩

/-- The template literal of line 113 and line 168. -/
def scoreLabel (n : Nat) : JsString := "Score: ".toList ++ (Nat.repr n).toList

/-- Colour of the preview material, `0xffffff`. -/
def previewColor : Color := ⟨1, 1, 1, "ffffff".toList⟩

/-- The state after the declarations of lines 7 to 51 and `init()`:
`currentY = 1.5`, `targetDropPosition = (0, currentY, 0)`, the preview cube
copied onto the target, the score text `Score: 0`. -/
def init : State :=
  { blocks := []
    bodies := []
    currentY := 3 / 2
    score := 0
    targetDropPosition := ⟨0, 3 / 2, 0⟩
    previewCube := some ⟨⟨0, 3 / 2, 0⟩, Quat.identity, cubeSize, ⟨previewColor, []⟩⟩
    scoreText := scoreLabel 0 }

/-- Lines 128 to 141. `hit` is what `raycaster.ray.intersectPlane(plane,
intersection)` wrote: `some p` when the ray meets the plane (the point `p` is
stored in `intersection`), `none` when it returns `null` and leaves
`intersection`, a fresh `new THREE.Vector3()`, untouched. -/
def onMouseMove (s : State) (hit : Option Vec3) : State :=
  let intersection : Vec3 := match hit with
    | some p => p
    | none => Vec3.zero
  let target : Vec3 := ⟨intersection.x, s.currentY, intersection.z⟩
  { s with
    targetDropPosition := target
    previewCube := match s.previewCube with
      | some cube => some { cube with position := target }
      | none => none }

/-- Lines 143 to 169. `color` is the colour the material constructor builds
from `Math.random() * 0xffffff`. At line 156 `world.addBody` records the
position just set as the `initPosition` of the body. The sound effect has no
part in the state. -/
def dropBlock (s : State) (color : Color) : State :=
  let mesh : Mesh :=
    { position := s.targetDropPosition
      quaternion := Quat.identity
      size := cubeSize
      material := ⟨color, []⟩ }
  let body : Body :=
    { position := ⟨s.targetDropPosition.x, s.currentY, s.targetDropPosition.z⟩
      quaternion := Quat.identity
      mass := 1
      halfExtents := ⟨cubeSize / 2, cubeSize / 2, cubeSize / 2⟩
      initPosition := ⟨s.targetDropPosition.x, s.currentY, s.targetDropPosition.z⟩ }
  let score := s.score + 1
  { s with
    blocks := s.blocks ++ [mesh]
    bodies := s.bodies ++ [body]
    currentY := s.currentY + cubeSize
    score := score
    scoreText := scoreLabel score }

/-- The effect of `world.step(1 / 60)` on the array `bodies`: the bodies stay
the same objects at the same indices, and body `i` gets the pose `pose i`. -/
def worldStep (pose : Nat → Vec3 × Quat) (bodies : List Body) : List Body :=
  bodies.enum.map fun ib =>
    { ib.2 with position := (pose ib.1).1, quaternion := (pose ib.1).2 }

/-- Lines 171 to 181: step the world, then copy the pose of `bodies[i]` onto
`blocks[i]` for every `i < blocks.length`. Where `bodies[i]` is missing the
JavaScript loop throws; the model leaves that block as it is. -/
def animate (s : State) (pose : Nat → Vec3 × Quat) : State :=
  let bodies := worldStep pose s.bodies
  { s with
    bodies := bodies
    blocks := s.blocks.enum.map fun im =>
      match bodies[im.1]? with
      | some b => { im.2 with position := b.position, quaternion := b.quaternion }
      | none => im.2 }

/-- The events of a session after `init()`. -/
inductive Event where
  | mouseMove (hit : Option Vec3)
  | drop (color : Color)
  | frame (pose : Nat → Vec3 × Quat)

/-- One event handled to completion. -/
def step (s : State) : Event → State
  | .mouseMove hit => onMouseMove s hit
  | .drop color => dropBlock s color
  | .frame pose => animate s pose

/-- The state after handling the events in order, from `s`. -/
def runFrom (s : State) (evs : List Event) : State := evs.foldl step s

/-- The state of the session after the events, from the initial state. -/
def run (evs : List Event) : State := runFrom init evs

/-- Whether the event is a drop. -/
def Event.isDrop : Event → Bool
  | .drop _ => true
  | _ => false

/-- Whether the event is a pointer move. -/
def Event.isMove : Event → Bool
  | .mouseMove _ => true
  | _ => false

/-- Number of drop events in the sequence. -/
def countDrops (evs : List Event) : Nat := evs.countP Event.isDrop

/-- The colour sampled by a drop event. -/
def Event.dropColor : Event → Option Color
  | .drop color => some color
  | _ => none

/-- Number of drop events after the most recent pointer move, or in the whole
sequence when there is no pointer move: the drops among the events read
backwards from the end up to the first pointer move met. -/
def dropsSinceMove (evs : List Event) : Nat :=
  countDrops (evs.reverse.takeWhile fun e => !e.isMove)

/-- What stays of a mesh from its construction on: the edge of its geometry
and its material. -/
def Mesh.made (m : Mesh) : ℚ × Material := (m.size, m.material)

/-- What stays of a body from its construction on: its mass, the half-extents
of its shape and the position at which it entered the world. -/
def Body.made (b : Body) : ℚ × Vec3 × Vec3 := (b.mass, b.halfExtents, b.initPosition)

/-- The position at which a drop in state `s` puts its body: the horizontal
coordinates of the drop target, at the stacking height. -/
def spawnPosition (s : State) : Vec3 :=
  ⟨s.targetDropPosition.x, s.currentY, s.targetDropPosition.z⟩

/-! ## Export: materials -/

/-- `Number.prototype.toFixed(4)` for a number of magnitude below `1e21`: the
sign, then the integer `n` nearest to `|x| * 10 ^ 4` (the larger one on a
tie) written in decimal, padded with zeros to five digits, with the point
before the last four. -/
def toFixed4 (x : ℚ) : JsString :=
  let sign : JsString := if x < 0 then ['-'] else []
  let n : Nat := (Int.floor (|x| * 10000 + 1 / 2)).toNat
  let m : JsString := (Nat.repr n).toList
  let m : JsString := List.replicate (5 - m.length) '0' ++ m
  sign ++ m.take (m.length - 4) ++ ['.'] ++ m.drop (m.length - 4)

/-- A `Map` from strings to strings, as its entries in insertion order. -/
abbrev JsMap := List (JsString × JsString)

/-- The value of `Map.prototype.get`: `none` stands for `undefined`. -/
def JsMap.get (m : JsMap) (key : JsString) : Option JsString := m.lookup key

/-- The value of `Map.prototype.size`. -/
def JsMap.size (m : JsMap) : Nat := m.length

/-- The effect of `Map.prototype.set`: the value of a present key is replaced
in place, a new key is appended. -/
def JsMap.set (m : JsMap) (key value : JsString) : JsMap :=
  if m.any (fun kv => kv.1 == key) then
    m.map fun kv => if kv.1 == key then (key, value) else kv
  else m ++ [(key, value)]

/-- Truthiness of the value of `materialMap.get(hex)`: `undefined` and the
empty string are falsy. -/
def truthy : Option JsString → Bool
  | some (_ :: _) => true
  | _ => false

/-- The template literal of line 197. -/
def matNameOf (n : Nat) : JsString := "mat_".toList ++ (Nat.repr n).toList

/-- The line pushed at line 199. -/
def newmtlLine (matName : JsString) : JsString := "newmtl ".toList ++ matName

/-- The line pushed at line 200; it ends in a line break of its own. -/
def kdLine (color : Color) : JsString :=
  "Kd ".toList ++ toFixed4 color.r ++ " ".toList ++ toFixed4 color.g ++ " ".toList
    ++ toFixed4 color.b ++ "\n".toList

/-- The locals of `exportTowerOBJ` that the loop of lines 190 to 208 updates;
`towerGroup` is the list of the children added to the group. -/
structure ExportAcc where
  materialMap : JsMap
  mtlLines : List JsString
  towerGroup : List Mesh
  deriving DecidableEq

/-- Lines 204 to 206: the clone of the block, with a cloned material named
`matName`. -/
def cloneNamed (block : Mesh) (matName : JsString) : Mesh :=
  { block with material := { block.material with name := matName } }

/-- One iteration of the loop of lines 190 to 208. -/
def exportStep (acc : ExportAcc) (block : Mesh) : ExportAcc :=
  let color := block.material.color
  let hex := color.hex
  let found := acc.materialMap.get hex
  if truthy found then
    { acc with towerGroup := acc.towerGroup ++ [cloneNamed block (found.getD [])] }
  else
    let matName := matNameOf acc.materialMap.size
    { materialMap := acc.materialMap.set hex matName
      mtlLines := acc.mtlLines ++ [newmtlLine matName, kdLine color]
      towerGroup := acc.towerGroup ++ [cloneNamed block matName] }

/-- The loop of lines 190 to 208 over `blocks`, from the empty locals. -/
def exportLoop (blocks : List Mesh) : ExportAcc :=
  blocks.foldl exportStep ⟨[], [], []⟩

/-- The value of `Array.prototype.join(sep)`. -/
def jsJoin (sep : JsString) (parts : List JsString) : JsString :=
  sep.intercalate parts

/-! ## Export: the material-reference rewrite -/

/-- The class `\s` of a JavaScript regular expression. -/
def isWhiteSpace (c : Char) : Bool :=
  let n := c.toNat
  n = 9 || n = 10 || n = 11 || n = 12 || n = 13 || n = 32 || n = 0xa0 || n = 0x1680
    || (0x2000 ≤ n && n ≤ 0x200a) || n = 0x2028 || n = 0x2029 || n = 0x202f
    || n = 0x205f || n = 0x3000 || n = 0xfeff

/-- A literal at the start of the text: the rest of the text after it. -/
def matchLiteral : JsString → JsString → Option JsString
  | [], s => some s
  | _ :: _, [] => none
  | a :: lit, b :: s => if a = b then matchLiteral lit s else none

/-- The greedy `\s+` at the start of the text: the rest after the whole run
of white space, which must not be empty. Both patterns continue with a letter,
so no shorter run can lead to a match. -/
def matchSpaces : JsString → Option JsString
  | [] => none
  | c :: cs => if isWhiteSpace c then some (cs.dropWhile isWhiteSpace) else none

/-- The pattern `usemtl\s+MeshStandardMaterial` at the start of the text: the
matched text and the rest after it. -/
def matchPlaceholder (s : JsString) : Option (JsString × JsString) :=
  (matchLiteral "usemtl".toList s).bind fun s1 =>
  (matchSpaces s1).bind fun s2 =>
  (matchLiteral "MeshStandardMaterial".toList s2).map fun s3 =>
  (s.take (s.length - s3.length), s3)

/-- The pattern `usemtl\s+(mat_\d+)` at the start of the text: the text of
its capture group, with the greedy run of digits. -/
def matchReference (s : JsString) : Option JsString :=
  (matchLiteral "usemtl".toList s).bind fun s1 =>
  (matchSpaces s1).bind fun s2 =>
  (matchLiteral "mat_".toList s2).bind fun s3 =>
  match s3 with
  | [] => none
  | d :: ds =>
    if d.isDigit then some ("mat_".toList ++ (d :: ds).takeWhile Char.isDigit) else none

/-- The capture group of `s.match(/usemtl\s+(mat_\d+)/)`: that of the
leftmost match, `none` when nothing matches. -/
def firstReference : JsString → Option JsString
  | [] => none
  | c :: cs =>
    match matchReference (c :: cs) with
    | some name => some name
    | none => firstReference cs

/-- The callback of lines 214 to 217, for the match `m` at `offset` of
`objText`. -/
def replaceCallback (objText : JsString) (m : JsString) (offset : Nat) : JsString :=
  match firstReference (objText.drop offset) with
  | some name => "usemtl ".toList ++ name
  | none => m

/-- The scan of `replace` with the global pattern of line 214 over the rest
of `objText` that starts at `offset`; `skip` counts the characters of the
last match that are still to be passed over. -/
def replaceGo (objText : JsString) : Nat → Nat → JsString → JsString
  | _, _, [] => []
  | skip + 1, offset, _ :: cs => replaceGo objText skip (offset + 1) cs
  | 0, offset, c :: cs =>
    match matchPlaceholder (c :: cs) with
    | some (m, _) =>
      replaceCallback objText m offset ++ replaceGo objText (m.length - 1) (offset + 1) cs
    | none => c :: replaceGo objText 0 (offset + 1) cs

/-- The value of
`objText.replace(/usemtl\s+MeshStandardMaterial/g, (match, offset) => ...)`. -/
def replacePlaceholders (objText : JsString) : JsString :=
  replaceGo objText 0 0 objText

/-- Lines 214 to 217: the text assigned to `objText`, from the text the
exporter returned. -/
def rewriteObj (objText : JsString) : JsString :=
  "mtllib tower.mtl\n".toList ++ replacePlaceholders objText

/-- The two texts `exportTowerOBJ` offers for download. -/
structure ExportResult where
  objText : JsString
  mtlText : JsString
  deriving DecidableEq

/-- Lines 183 to 235, for the value `blocks` of the module variable. `parse`
is `OBJExporter.parse` of the library, applied to the children of
`towerGroup`. -/
def exportTowerOBJ (parse : List Mesh → JsString) (blocks : List Mesh) : ExportResult :=
  let acc := exportLoop blocks
  let objText := parse acc.towerGroup
  let objText := rewriteObj objText
  let mtlText := jsJoin "\n".toList acc.mtlLines
  ⟨objText, mtlText⟩

/-- Modelled from the spec: what `OBJExporter.parse`, which belongs to the
rendering library and is not in the source, writes for one child of the group:
the object line (the clones have the empty name), one material reference line
`usemtl <material name>` when the material has a name, and the vertex and face
records of the child, given by `geometryText`. -/
def exporterChild (geometryText : Mesh → JsString) (mesh : Mesh) : JsString :=
  "o \n".toList
    ++ (if mesh.material.name = [] then []
        else "usemtl ".toList ++ mesh.material.name ++ "\n".toList)
    ++ geometryText mesh

/-- Modelled from the spec: `OBJExporter.parse` of the rendering library,
which is not in the source, writes the text of every child of the group, in
group order. A group without children yields the empty text. -/
def exporterParse (geometryText : Mesh → JsString) (group : List Mesh) : JsString :=
  group.flatMap (exporterChild geometryText)

/-- The value of `text.split('\n')`. -/
def splitLines : JsString → List JsString
  | [] => [[]]
  | c :: cs =>
    if c = '\n' then [] :: splitLines cs
    else match splitLines cs with
      | [] => [[c]]
      | l :: ls => (c :: l) :: ls

/-- The material name of a line `usemtl <name>`, `none` for any other line. -/
def usemtlName (line : JsString) : Option JsString := matchLiteral "usemtl ".toList line

/-- The names of the material reference lines of a text, in order. -/
def usemtlNames (text : JsString) : List JsString := (splitLines text).filterMap usemtlName

/-- The characters of the vertex, texture, normal and face records the
exporter writes. -/
def isGeometryChar (c : Char) : Bool :=
  c.isDigit || c = 'v' || c = 't' || c = 'n' || c = 'f' || c = ' ' || c = '/' || c = '.'
    || c = '-' || c = '+' || c = 'e' || c = '\n'

/-! ## Notions of the specification -/

/-- The hex key of a cube. -/
def hexOf (block : Mesh) : JsString := block.material.color.hex

/-- The hex keys of the cubes, in drop order. -/
def hexKeys (blocks : List Mesh) : List JsString := blocks.map hexOf

/-- The position of the first occurrence of `x` in the list, the length of
the list when `x` does not occur. -/
def firstIndex {κ : Type} [DecidableEq κ] (x : κ) (l : List κ) : Nat :=
  l.findIdx fun y => decide (y = x)

/-- The elements of a list that are the first with their key, in the order
of the list. -/
def firstSeenBy {α κ : Type} [DecidableEq κ] (key : α → κ) : List α → List α
  | [] => []
  | a :: l => a :: (firstSeenBy key l).filter (fun b => key b ≠ key a)

/-- The cubes that are the first with their hex key, in drop order. -/
def firstCubes (blocks : List Mesh) : List Mesh := firstSeenBy hexOf blocks

/-- The material-definition block number `k`, for the colour of `block`: the
`newmtl` line, then the `Kd` line. -/
def materialBlock (k : Nat) (block : Mesh) : List JsString :=
  [newmtlLine (matNameOf k), kdLine block.material.color]

/-- The locals of `exportTowerOBJ` after the loop, as the specification has
them: one map entry and one material block per distinct hex key, numbered in
the order of first appearance, and every cube cloned under the name of its
key. -/
def exportLoopSpec (blocks : List Mesh) : ExportAcc :=
  { materialMap := (firstCubes blocks).enum.map fun kb => (hexOf kb.2, matNameOf kb.1)
    mtlLines := (firstCubes blocks).enum.flatMap fun kb => materialBlock kb.1 kb.2
    towerGroup := blocks.map fun b =>
      cloneNamed b (matNameOf (firstIndex (hexOf b) (hexKeys (firstCubes blocks)))) }

/-- Every material of the group is named `mat_<k>` for some `k`. -/
def NamedGroup (group : List Mesh) : Prop :=
  ∀ mesh ∈ group, ∃ k, mesh.material.name = matNameOf k

/-- The text is empty or starts with a character other than `u`. -/
def NoLeadingU (s : JsString) : Prop := ∀ c ∈ s.head?, c ≠ 'u'

/-- A placeholder reference: `usemtl`, white space, `MeshStandardMaterial`. -/
def IsPlaceholder (m : JsString) : Prop :=
  ∃ ws : JsString, ws ≠ [] ∧ (∀ c ∈ ws, isWhiteSpace c = true) ∧
    m = "usemtl".toList ++ ws ++ "MeshStandardMaterial".toList

/-- A reference to the material `name`: `usemtl`, white space, then the name
`mat_<digits>`. -/
def IsReference (r name : JsString) : Prop :=
  ∃ ws ds : JsString, ws ≠ [] ∧ (∀ c ∈ ws, isWhiteSpace c = true) ∧
    ds ≠ [] ∧ (∀ c ∈ ds, c.isDigit = true) ∧
    name = "mat_".toList ++ ds ∧ r = "usemtl".toList ++ ws ++ name

/-- The text has an occurrence of a placeholder reference that starts at
position `i`. -/
def PlaceholderAt (text : JsString) (i : Nat) : Prop :=
  ∃ m rest, IsPlaceholder m ∧ text.drop i = m ++ rest ∧ i < text.length

/-- The material `name` is the one of the first reference in `text`: a
reference to it starts at some position, its digits end there, and no
reference to any material starts before. -/
def FirstReferenceIs (text name : JsString) : Prop :=
  ∃ before r after, text = before ++ r ++ after ∧ IsReference r name ∧
    (∀ d ∈ after.head?, d.isDigit = false) ∧
    ∀ j < before.length, ∀ r2 name2 rest, IsReference r2 name2 → text.drop j ≠ r2 ++ rest

/-- No reference to a material occurs in the text. -/
def NoReference (text : JsString) : Prop :=
  ∀ before r name after, IsReference r name → text ≠ before ++ r ++ after

/-! ## Sample data -/

/-- A cube at the origin with the given colour. -/
def cubeOf (color : Color) : Mesh := ⟨Vec3.zero, Quat.identity, cubeSize, ⟨color, []⟩⟩

/-- The colour `#ff0000`. -/
def red : Color := ⟨1, 0, 0, "ff0000".toList⟩

/-- The colour `#00ff00`. -/
def green : Color := ⟨0, 1, 0, "00ff00".toList⟩

/-- A geometry text with one vertex record, the same for every child. -/
def sampleGeometry : Mesh → JsString := fun _ => "v 0 0 0\n".toList

/-! ## Session: lengths, height, score and pairing -/

theorem run_snoc (evs : List Event) (e : Event) : run (evs ++ [e]) = step (run evs) e := by
  simp [run, runFrom, List.foldl_append]

theorem countDrops_snoc (evs : List Event) (e : Event) :
    countDrops (evs ++ [e]) = countDrops evs + (if e.isDrop then 1 else 0) := by
  simp [countDrops, List.countP_append, List.countP_cons]

theorem step_blocks_length (s : State) (e : Event) :
    (step s e).blocks.length = s.blocks.length + (if e.isDrop then 1 else 0) := by
  cases e <;> simp [step, onMouseMove, dropBlock, animate, Event.isDrop]

theorem step_bodies_length (s : State) (e : Event) :
    (step s e).bodies.length = s.bodies.length + (if e.isDrop then 1 else 0) := by
  cases e <;> simp [step, onMouseMove, dropBlock, animate, Event.isDrop, worldStep]

theorem run_blocks_length (evs : List Event) : (run evs).blocks.length = countDrops evs := by
  induction evs using List.reverseRecOn with
  | nil => rfl
  | append_singleton evs e ih => rw [run_snoc, step_blocks_length, ih, countDrops_snoc]

theorem run_bodies_length (evs : List Event) : (run evs).bodies.length = countDrops evs := by
  induction evs using List.reverseRecOn with
  | nil => rfl
  | append_singleton evs e ih => rw [run_snoc, step_bodies_length, ih, countDrops_snoc]

theorem step_currentY (s : State) (e : Event) :
    (step s e).currentY = s.currentY + (if e.isDrop then cubeSize else 0) := by
  cases e <;> simp [step, onMouseMove, dropBlock, animate, Event.isDrop]

theorem run_currentY (evs : List Event) :
    (run evs).currentY = 3 / 2 + (countDrops evs : ℚ) * cubeSize := by
  induction evs using List.reverseRecOn with
  | nil => simp [run, runFrom, init, countDrops]
  | append_singleton evs e ih =>
    rw [run_snoc, step_currentY, ih, countDrops_snoc]
    cases h : e.isDrop <;> simp
    ring

theorem step_score (s : State) (e : Event) :
    (step s e).score = s.score + (if e.isDrop then 1 else 0) := by
  cases e <;> simp [step, onMouseMove, dropBlock, animate, Event.isDrop]

theorem run_score (evs : List Event) : (run evs).score = countDrops evs := by
  induction evs using List.reverseRecOn with
  | nil => rfl
  | append_singleton evs e ih => rw [run_snoc, step_score, ih, countDrops_snoc]

theorem step_scoreText (s : State) (e : Event) (h : s.scoreText = scoreLabel s.score) :
    (step s e).scoreText = scoreLabel (step s e).score := by
  cases e <;> simp [step, onMouseMove, dropBlock, animate, h]

theorem run_scoreText (evs : List Event) : (run evs).scoreText = scoreLabel (run evs).score := by
  induction evs using List.reverseRecOn with
  | nil => rfl
  | append_singleton evs e ih => rw [run_snoc]; exact step_scoreText _ _ ih

theorem map_map_enumFrom {α β γ : Type} (f : Nat × α → β) (g : β → γ) (h : α → γ)
    (hfg : ∀ i x, g (f (i, x)) = h x) (n : Nat) (l : List α) :
    ((l.enumFrom n).map f).map g = l.map h := by
  induction l generalizing n with
  | nil => rfl
  | cons a l ih => simp [List.enumFrom, hfg, ih]

/-- The part of a drop that stays in the mesh it creates. -/
theorem step_blocks_made (s : State) (e : Event) :
    (step s e).blocks.map Mesh.made
      = s.blocks.map Mesh.made ++ (e.dropColor.toList.map fun c => (cubeSize, ⟨c, []⟩)) := by
  cases e with
  | mouseMove hit => simp [step, onMouseMove, Event.dropColor]
  | drop color => simp [step, dropBlock, Event.dropColor, Mesh.made]
  | frame pose =>
    simp only [step, animate, Event.dropColor, Option.toList, List.map_nil, List.append_nil,
      List.enum]
    apply map_map_enumFrom
    intro i x
    cases (worldStep pose s.bodies)[i]? <;> simp [Mesh.made]

theorem step_bodies_made (s : State) (e : Event) :
    (step s e).bodies.map Body.made
      = s.bodies.map Body.made
        ++ (e.dropColor.toList.map fun _ =>
            (1, ⟨cubeSize / 2, cubeSize / 2, cubeSize / 2⟩, spawnPosition s)) := by
  cases e with
  | mouseMove hit => simp [step, onMouseMove, Event.dropColor]
  | drop color => simp [step, dropBlock, Event.dropColor, Body.made, spawnPosition]
  | frame pose =>
    simp only [step, animate, Event.dropColor, Option.toList, List.map_nil, List.append_nil,
      worldStep, List.enum]
    apply map_map_enumFrom
    intro i x
    simp [Body.made]

theorem step_bodies_made_getElem? (s : State) (e : Event) (i : Nat)
    (hi : i < s.bodies.length) :
    ((step s e).bodies[i]?).map Body.made = (s.bodies[i]?).map Body.made := by
  rw [← List.getElem?_map, step_bodies_made, ← List.getElem?_map,
    List.getElem?_append_left (by simpa using hi)]

theorem run_snoc_drop_bodies (pre post : List Event) (color : Color) :
    ((run (pre ++ Event.drop color :: post)).bodies[countDrops pre]?).map Body.made
      = some (1, ⟨cubeSize / 2, cubeSize / 2, cubeSize / 2⟩, spawnPosition (run pre)) := by
  induction post using List.reverseRecOn with
  | nil =>
    rw [run_snoc, ← List.getElem?_map, step_bodies_made, ← run_bodies_length pre,
      List.getElem?_append_right (by simp)]
    simp [Event.dropColor]
  | append_singleton post e ih =>
    have hlen : countDrops pre < (run (pre ++ Event.drop color :: post)).bodies.length := by
      rw [run_bodies_length]
      simp [countDrops, List.countP_append, List.countP_cons, Event.isDrop]
    rw [show pre ++ Event.drop color :: (post ++ [e])
        = (pre ++ Event.drop color :: post) ++ [e] by simp, run_snoc,
      step_bodies_made_getElem? _ _ _ hlen, ih]

theorem step_bodies_heights (s : State) (e : Event) :
    (step s e).bodies.map (fun b => b.initPosition.y)
      = s.bodies.map (fun b => b.initPosition.y)
        ++ (e.dropColor.toList.map fun _ => s.currentY) := by
  have h := congrArg (List.map fun m : ℚ × Vec3 × Vec3 => m.2.2.y) (step_bodies_made s e)
  simpa [List.map_map, Function.comp_def, Body.made, spawnPosition] using h

theorem run_bodies_heights (evs : List Event) :
    (run evs).bodies.map (fun b => b.initPosition.y)
      = (List.range (countDrops evs)).map fun i => 3 / 2 + (i : ℚ) * cubeSize := by
  induction evs using List.reverseRecOn with
  | nil => rfl
  | append_singleton evs e ih =>
    rw [run_snoc, step_bodies_heights, ih, countDrops_snoc, run_currentY]
    cases e <;> simp [Event.dropColor, Event.isDrop, List.range_succ]

theorem run_blocks_made (evs : List Event) :
    (run evs).blocks.map Mesh.made
      = (evs.filterMap Event.dropColor).map fun c => (cubeSize, ⟨c, []⟩) := by
  induction evs using List.reverseRecOn with
  | nil => rfl
  | append_singleton evs e ih =>
    rw [run_snoc, step_blocks_made, ih, List.filterMap_append]
    cases h : e.dropColor <;> simp [h]

theorem length_filterMap_dropColor (evs : List Event) :
    (evs.filterMap Event.dropColor).length = countDrops evs := by
  induction evs with
  | nil => rfl
  | cons e evs ih =>
    cases e <;> simp [Event.dropColor, countDrops, Event.isDrop, List.filterMap_cons] at ih ⊢ <;>
      exact ih

theorem getElem?_filterMap_dropColor (pre post : List Event) (color : Color) :
    ((pre ++ Event.drop color :: post).filterMap Event.dropColor)[countDrops pre]?
      = some color := by
  rw [List.filterMap_append,
    List.getElem?_append_right (by rw [length_filterMap_dropColor]),
    length_filterMap_dropColor]
  simp [Event.dropColor, List.filterMap_cons]

theorem run_blocks_colors (evs : List Event) :
    (run evs).blocks.map (fun m => m.material.color) = evs.filterMap Event.dropColor := by
  have h := congrArg (List.map fun m : ℚ × Material => m.2.color) (run_blocks_made evs)
  simpa [List.map_map, Function.comp_def, Mesh.made] using h

/-- C4. After any sequence of pointer-move, drop and frame-step events, the
collections `blocks` and `bodies` both have as many entries as there were drop
events. A drop event that comes after `i` earlier drops finds both collections
at length `i` and appends one mesh to `blocks` and one body to `bodies`, so
both land at index `i`; and whatever events follow, the entries at index `i`
are still the ones that drop made: the mesh with the colour of that drop and
its edge, the body with its mass, its half-extents and the position at which
it entered the world, whose height `1.5 + i * cubeSize` no other drop gives. Over the whole
session the colours of `blocks` are the colours of the drops in order and the
entry heights of `bodies` are `1.5`, `1.5 + cubeSize`, `1.5 + 2 * cubeSize`
and so on. -/
theorem blocks_bodies_paired (evs pre post : List Event) (color : Color) :
    ((run evs).blocks.length = countDrops evs ∧ (run evs).bodies.length = countDrops evs) ∧
    ((run pre).blocks.length = countDrops pre ∧ (run pre).bodies.length = countDrops pre) ∧
    (∃ mesh body,
      (run (pre ++ [Event.drop color])).blocks = (run pre).blocks ++ [mesh] ∧
      (run (pre ++ [Event.drop color])).bodies = (run pre).bodies ++ [body] ∧
      ((run (pre ++ Event.drop color :: post)).blocks[countDrops pre]?).map Mesh.made
        = some mesh.made ∧
      ((run (pre ++ Event.drop color :: post)).bodies[countDrops pre]?).map Body.made
        = some body.made ∧
      ((run (pre ++ Event.drop color :: post)).blocks[countDrops pre]?).map
          (fun m => m.material.color) = some color ∧
      ((run (pre ++ Event.drop color :: post)).bodies[countDrops pre]?).map
          (fun b => b.initPosition) = some body.position ∧
      mesh.material.color = color ∧
      body.initPosition = body.position ∧
      body.initPosition.y = 3 / 2 + (countDrops pre : ℚ) * cubeSize) ∧
    (run evs).blocks.map (fun m => m.material.color) = evs.filterMap Event.dropColor ∧
    (run evs).bodies.map (fun b => b.initPosition.y)
      = (List.range (countDrops evs)).map (fun i => 3 / 2 + (i : ℚ) * cubeSize) := by
  refine ⟨⟨run_blocks_length evs, run_bodies_length evs⟩,
    ⟨run_blocks_length pre, run_bodies_length pre⟩, ?_, run_blocks_colors evs,
    run_bodies_heights evs⟩
  refine ⟨⟨(run pre).targetDropPosition, Quat.identity, cubeSize, ⟨color, []⟩⟩,
    ⟨spawnPosition (run pre), Quat.identity, 1, ⟨cubeSize / 2, cubeSize / 2, cubeSize / 2⟩,
      spawnPosition (run pre)⟩, ?_, ?_, ?_, ?_, ?_, ?_, rfl, rfl, ?_⟩
  · rw [run_snoc]; rfl
  · rw [run_snoc]; rfl
  · rw [← List.getElem?_map, run_blocks_made, List.getElem?_map,
      getElem?_filterMap_dropColor]
    rfl
  · rw [run_snoc_drop_bodies]
    rfl
  · rw [← List.getElem?_map, run_blocks_colors, getElem?_filterMap_dropColor]
  · have h := congrArg (Option.map fun m : ℚ × Vec3 × Vec3 => m.2.2)
      (run_snoc_drop_bodies pre post color)
    simpa [Option.map_map, Function.comp_def, Body.made] using h
  · exact run_currentY pre

/-! ## Session: drops and pointer moves -/

/-- C5. After any sequence of pointer-move, drop and frame-step events with
`N` drops the stacking height `currentY` is `1.5 + N * cubeSize`, with
`cubeSize = 3`; and a drop never lowers it. -/
theorem stacking_height (evs : List Event) (s : State) (color : Color) :
    (run evs).currentY = 3 / 2 + (countDrops evs : ℚ) * cubeSize ∧ cubeSize = 3 ∧
    s.currentY < (dropBlock s color).currentY := by
  refine ⟨run_currentY evs, rfl, ?_⟩
  simp [dropBlock, cubeSize]

/-- C6. A drop appends to `blocks` one cube placed exactly at the drop target,
and to `bodies` one body with half-extents `cubeSize / 2` on each axis, placed
at the horizontal coordinates of the drop target and at the height `currentY`
has before the drop adds `cubeSize` to it. -/
theorem dropBlock_appends (s : State) (color : Color) :
    ∃ mesh body,
      (dropBlock s color).blocks = s.blocks ++ [mesh] ∧
      (dropBlock s color).bodies = s.bodies ++ [body] ∧
      mesh.position = s.targetDropPosition ∧ mesh.size = cubeSize ∧
      mesh.material.color = color ∧
      body.halfExtents = ⟨cubeSize / 2, cubeSize / 2, cubeSize / 2⟩ ∧
      body.position = ⟨s.targetDropPosition.x, s.currentY, s.targetDropPosition.z⟩ ∧
      (dropBlock s color).currentY = s.currentY + cubeSize :=
  ⟨⟨s.targetDropPosition, Quat.identity, cubeSize, ⟨color, []⟩⟩,
    ⟨⟨s.targetDropPosition.x, s.currentY, s.targetDropPosition.z⟩, Quat.identity, 1,
      ⟨cubeSize / 2, cubeSize / 2, cubeSize / 2⟩, spawnPosition s⟩,
    rfl, rfl, rfl, rfl, rfl, rfl, rfl, rfl⟩

/-- C8. After any sequence of events with `N` drops the score is `N` and the
text of the score element is `Score: N`; a pointer move changes neither the
score, nor its text, nor the stacking height, nor the two collections. -/
theorem score_counts_drops (evs : List Event) (s : State) (hit : Option Vec3) :
    (run evs).score = countDrops evs ∧
    (run evs).scoreText = "Score: ".toList ++ (Nat.repr (countDrops evs)).toList ∧
    (onMouseMove s hit).score = s.score ∧ (onMouseMove s hit).scoreText = s.scoreText ∧
    (onMouseMove s hit).currentY = s.currentY ∧ (onMouseMove s hit).blocks = s.blocks ∧
    (onMouseMove s hit).bodies = s.bodies := by
  refine ⟨run_score evs, ?_, rfl, rfl, rfl, rfl, rfl⟩
  rw [run_scoreText, run_score]
  rfl

/-- C3, as the code has it. When the ray does not meet the ground plane, the
pointer move still writes the drop target: its horizontal coordinates become
those of the untouched intersection vector, `0` and `0`, its height becomes the
stacking height, and the preview cube is moved onto it. -/
theorem onMouseMove_parallel_resets_target (s : State) :
    (onMouseMove s none).targetDropPosition = ⟨0, s.currentY, 0⟩ ∧
    (onMouseMove s none).previewCube.map Mesh.position
      = s.previewCube.map (fun _ => (⟨0, s.currentY, 0⟩ : Vec3)) := by
  refine ⟨rfl, ?_⟩
  cases h : s.previewCube <;> simp [onMouseMove, h, Vec3.zero]

/-- C3 fails as stated: after a pointer move that put the target at `(5, 1.5,
5)`, a pointer move whose ray is parallel to the ground plane changes the drop
target and the position of the preview cube. -/
theorem onMouseMove_parallel_changes_target :
    (onMouseMove (run [Event.mouseMove (some ⟨5, 0, 5⟩)]) none).targetDropPosition
      ≠ (run [Event.mouseMove (some ⟨5, 0, 5⟩)]).targetDropPosition ∧
    (onMouseMove (run [Event.mouseMove (some ⟨5, 0, 5⟩)]) none).previewCube
      ≠ (run [Event.mouseMove (some ⟨5, 0, 5⟩)]).previewCube := by
  simp [run, runFrom, step, onMouseMove, init, Vec3.zero]

theorem dropsSinceMove_snoc (evs : List Event) (e : Event) :
    dropsSinceMove (evs ++ [e])
      = if e.isMove then 0 else dropsSinceMove evs + (if e.isDrop then 1 else 0) := by
  cases e <;>
    simp [dropsSinceMove, Event.isMove, Event.isDrop, countDrops, List.takeWhile_cons,
      List.countP_cons]

theorem step_target_lag (s : State) (e : Event) :
    (step s e).currentY - (step s e).targetDropPosition.y
      = if e.isMove then 0
        else s.currentY - s.targetDropPosition.y + (if e.isDrop then cubeSize else 0) := by
  cases e <;> simp [step, onMouseMove, dropBlock, animate, Event.isMove, Event.isDrop]
  ring

theorem run_target_lag (evs : List Event) :
    (run evs).currentY - (run evs).targetDropPosition.y
      = cubeSize * (dropsSinceMove evs : ℚ) := by
  induction evs using List.reverseRecOn with
  | nil => simp [run, runFrom, init, dropsSinceMove, countDrops]
  | append_singleton evs e ih =>
    rw [run_snoc, step_target_lag, ih, dropsSinceMove_snoc]
    cases hm : e.isMove <;> cases hd : e.isDrop <;> simp
    ring

/-- C10. After any sequence of events the stacking height exceeds the height
of the drop target by `cubeSize` times the number of drops since the most
recent pointer move (since the start when there was none). It is `0` right
after a pointer move, and the body a drop creates stands above the cube it
creates by that difference as it is before the drop. -/
theorem target_lags_height (evs : List Event) (hit : Option Vec3) (color : Color) :
    (run evs).currentY - (run evs).targetDropPosition.y
      = cubeSize * (dropsSinceMove evs : ℚ) ∧
    (run (evs ++ [Event.mouseMove hit])).currentY
      - (run (evs ++ [Event.mouseMove hit])).targetDropPosition.y = 0 ∧
    ∃ mesh body,
      (run (evs ++ [Event.drop color])).blocks = (run evs).blocks ++ [mesh] ∧
      (run (evs ++ [Event.drop color])).bodies = (run evs).bodies ++ [body] ∧
      body.position.y - mesh.position.y = cubeSize * (dropsSinceMove evs : ℚ) := by
  refine ⟨run_target_lag evs, ?_, ?_⟩
  · rw [run_target_lag, dropsSinceMove_snoc]; simp [Event.isMove]
  · refine ⟨⟨(run evs).targetDropPosition, Quat.identity, cubeSize, ⟨color, []⟩⟩,
      ⟨⟨(run evs).targetDropPosition.x, (run evs).currentY, (run evs).targetDropPosition.z⟩,
        Quat.identity, 1, ⟨cubeSize / 2, cubeSize / 2, cubeSize / 2⟩,
        spawnPosition (run evs)⟩, ?_, ?_, ?_⟩
    · rw [run_snoc]; rfl
    · rw [run_snoc]; rfl
    · exact run_target_lag evs

/-! ## Export: first occurrences -/

section FirstSeen

variable {α κ : Type} [DecidableEq κ] (key : α → κ)

theorem map_key_filter_ne (a : κ) (l : List α) :
    (l.filter fun b => key b ≠ a).map key = (l.map key).filter fun x => x ≠ a := by
  induction l with
  | nil => rfl
  | cons b l ih =>
    by_cases h : key b = a
    · simpa [List.filter_cons, h] using ih
    · simpa [List.filter_cons, h] using ih

theorem mem_keys_firstSeenBy (l : List α) (x : κ) :
    x ∈ (firstSeenBy key l).map key ↔ x ∈ l.map key := by
  induction l with
  | nil => simp [firstSeenBy]
  | cons a l ih =>
    simp only [firstSeenBy, List.map_cons, List.mem_cons, map_key_filter_ne, List.mem_filter, ih]
    by_cases h : x = key a <;> simp [h]

theorem nodup_keys_firstSeenBy (l : List α) : ((firstSeenBy key l).map key).Nodup := by
  induction l with
  | nil => simp [firstSeenBy]
  | cons a l ih =>
    simp only [firstSeenBy, List.map_cons, map_key_filter_ne, List.nodup_cons, List.mem_filter]
    exact ⟨by simp, ih.filter _⟩

theorem firstSeenBy_snoc (l : List α) (a : α) :
    firstSeenBy key (l ++ [a])
      = if key a ∈ l.map key then firstSeenBy key l else firstSeenBy key l ++ [a] := by
  induction l with
  | nil => simp [firstSeenBy]
  | cons b l ih =>
    rw [List.cons_append, firstSeenBy, ih]
    by_cases h1 : key a ∈ l.map key
    · rw [if_pos h1]
      simp [h1, firstSeenBy]
    · rw [if_neg h1]
      by_cases h2 : key a = key b
      · simp [h1, h2, firstSeenBy, List.filter_append, List.filter_cons]
      · simp [h1, h2, firstSeenBy, List.filter_append, List.filter_cons]

theorem length_firstSeenBy (l : List α) :
    (firstSeenBy key l).length = (l.map key).toFinset.card := by
  rw [← List.length_map (firstSeenBy key l) key,
    ← List.toFinset_card_of_nodup (nodup_keys_firstSeenBy key l)]
  congr 1
  ext x
  simp only [List.mem_toFinset]
  exact mem_keys_firstSeenBy key l x

theorem firstIndex_cons_self (x : κ) (l : List κ) : firstIndex x (x :: l) = 0 := by
  simp [firstIndex, List.findIdx_cons]

theorem firstIndex_cons_ne {x y : κ} (l : List κ) (h : y ≠ x) :
    firstIndex x (y :: l) = firstIndex x l + 1 := by
  simp [firstIndex, List.findIdx_cons, h]

theorem firstIndex_lt_length {x : κ} {l : List κ} (h : x ∈ l) : firstIndex x l < l.length := by
  apply List.findIdx_lt_length_of_exists
  exact ⟨x, h, by simp⟩

theorem firstIndex_of_not_mem {x : κ} {l : List κ} (h : x ∉ l) : firstIndex x l = l.length := by
  apply List.findIdx_eq_length_of_false
  intro y hy
  simp only [decide_eq_false_iff_not]
  rintro rfl
  exact h hy

theorem firstIndex_append_of_mem {x : κ} {l₁ : List κ} (l₂ : List κ) (h : x ∈ l₁) :
    firstIndex x (l₁ ++ l₂) = firstIndex x l₁ := by
  have := firstIndex_lt_length h
  unfold firstIndex at this ⊢
  rw [List.findIdx_append, if_pos this]

theorem firstIndex_append_of_not_mem {x : κ} {l₁ : List κ} (l₂ : List κ) (h : x ∉ l₁) :
    firstIndex x (l₁ ++ l₂) = l₁.length + firstIndex x l₂ := by
  have := firstIndex_of_not_mem h
  unfold firstIndex at this ⊢
  rw [List.findIdx_append, this, if_neg (Nat.lt_irrefl _), Nat.add_comm]

theorem pairwise_keys_firstSeenBy (l : List α) :
    ((firstSeenBy key l).map key).Pairwise
      fun x y => firstIndex x (l.map key) < firstIndex y (l.map key) := by
  induction l using List.reverseRecOn with
  | nil => simp [firstSeenBy]
  | append_singleton l a ih =>
    have mono : ∀ x ∈ (firstSeenBy key l).map key, ∀ y ∈ (firstSeenBy key l).map key,
        firstIndex x (l.map key) < firstIndex y (l.map key) →
        firstIndex x ((l ++ [a]).map key) < firstIndex y ((l ++ [a]).map key) := by
      intro x hx y hy hlt
      rw [mem_keys_firstSeenBy] at hx hy
      rw [List.map_append, firstIndex_append_of_mem _ hx, firstIndex_append_of_mem _ hy]
      exact hlt
    rw [firstSeenBy_snoc]
    by_cases h : key a ∈ l.map key
    · simp only [h, if_true]
      exact ih.imp_of_mem fun hx hy hlt => mono _ hx _ hy hlt
    · simp only [h, if_false, List.map_append, List.map_cons, List.map_nil]
      rw [List.pairwise_append]
      refine ⟨?_, List.pairwise_singleton _ _, ?_⟩
      · have := ih.imp_of_mem fun hx hy hlt => mono _ hx _ hy hlt
        simpa [List.map_append] using this
      · intro x hx y hy
        rw [List.mem_singleton] at hy
        subst hy
        rw [mem_keys_firstSeenBy] at hx
        rw [firstIndex_append_of_mem _ hx, firstIndex_append_of_not_mem _ h]
        have := firstIndex_lt_length hx
        omega

theorem find?_of_mem_firstSeenBy (l : List α) (b : α) (hb : b ∈ firstSeenBy key l) :
    l.find? (fun c => key c = key b) = some b := by
  induction l with
  | nil => simp [firstSeenBy] at hb
  | cons a l ih =>
    simp only [firstSeenBy, List.mem_cons, List.mem_filter] at hb
    rcases hb with rfl | ⟨hb, hne⟩
    · simp
    · have hne' : ¬ key a = key b := by
        intro h; simp [h] at hne
      simp [List.find?_cons, hne', ih hb]

end FirstSeen

/-! ## Export: the loop and its closed form -/

theorem lookup_enumFrom_names (fs : List Mesh) (n : Nat) (h : JsString) :
    List.lookup h ((fs.enumFrom n).map fun kb => (hexOf kb.2, matNameOf kb.1))
      = if h ∈ hexKeys fs then some (matNameOf (n + firstIndex h (hexKeys fs))) else none := by
  induction fs generalizing n with
  | nil => simp [hexKeys]
  | cons b fs ih =>
    simp only [List.enumFrom_cons, List.map_cons, hexKeys, List.mem_cons]
    by_cases hb : h = hexOf b
    · subst hb
      simp [firstIndex_cons_self]
    · have hb' : (h == hexOf b) = false := by simpa using hb
      rw [List.lookup_cons, hb']
      simp only [hexKeys] at ih
      rw [ih (n + 1), firstIndex_cons_ne _ (Ne.symm hb)]
      simp only [hb, false_or]
      split <;> simp [Nat.add_assoc, Nat.add_comm 1]

theorem any_enumFrom_names (fs : List Mesh) (n : Nat) (h : JsString) :
    ((fs.enumFrom n).map fun kb => (hexOf kb.2, matNameOf kb.1)).any (fun kv => kv.1 == h)
      = decide (h ∈ hexKeys fs) := by
  induction fs generalizing n with
  | nil => simp [hexKeys]
  | cons b fs ih =>
    simp only [List.enumFrom_cons, List.map_cons, List.any_cons, ih (n + 1), hexKeys,
      List.mem_cons, Bool.decide_or]
    by_cases hb : h = hexOf b
    · simp [hb]
    · have : (hexOf b == h) = false := by simpa using Ne.symm hb
      simp [hb, this]

theorem truthy_matNameOf (k : Nat) : truthy (some (matNameOf k)) = true := rfl

theorem mem_hexKeys_firstCubes (blocks : List Mesh) (h : JsString) :
    h ∈ hexKeys (firstCubes blocks) ↔ h ∈ hexKeys blocks :=
  mem_keys_firstSeenBy hexOf blocks h

theorem exportStep_spec (blocks : List Mesh) (b : Mesh) :
    exportStep (exportLoopSpec blocks) b = exportLoopSpec (blocks ++ [b]) := by
  have hsnoc := firstSeenBy_snoc hexOf blocks b
  by_cases hmem : hexOf b ∈ hexKeys blocks
  · have hmem' := (mem_hexKeys_firstCubes blocks _).mpr hmem
    have hfirst : firstCubes (blocks ++ [b]) = firstCubes blocks := by
      rw [firstCubes, hsnoc, if_pos (show hexOf b ∈ List.map hexOf blocks from hmem)]
      rfl
    have hget : (exportLoopSpec blocks).materialMap.get (hexOf b)
        = some (matNameOf (firstIndex (hexOf b) (hexKeys (firstCubes blocks)))) := by
      simp only [exportLoopSpec, JsMap.get, List.enum]
      rw [lookup_enumFrom_names, if_pos hmem', Nat.zero_add]
    simp only [exportStep]
    rw [show b.material.color.hex = hexOf b from rfl, hget, truthy_matNameOf]
    simp [exportLoopSpec, hfirst]
  · have hmem' : hexOf b ∉ hexKeys (firstCubes blocks) :=
      fun h => hmem ((mem_hexKeys_firstCubes blocks _).mp h)
    have hfirst : firstCubes (blocks ++ [b]) = firstCubes blocks ++ [b] := by
      rw [firstCubes, hsnoc, if_neg (show hexOf b ∉ List.map hexOf blocks from hmem)]
      rfl
    have hget : (exportLoopSpec blocks).materialMap.get (hexOf b) = none := by
      simp only [exportLoopSpec, JsMap.get, List.enum]
      rw [lookup_enumFrom_names, if_neg hmem']
    have hany : (exportLoopSpec blocks).materialMap.any (fun kv => kv.1 == hexOf b) = false := by
      simp only [exportLoopSpec, List.enum]
      rw [any_enumFrom_names]
      simpa using hmem'
    have hsize : (exportLoopSpec blocks).materialMap.size = (firstCubes blocks).length := by
      simp [exportLoopSpec, JsMap.size]
    have hold : ∀ c ∈ blocks,
        firstIndex (hexOf c) (hexKeys (firstCubes blocks ++ [b]))
          = firstIndex (hexOf c) (hexKeys (firstCubes blocks)) := by
      intro c hc
      have : hexOf c ∈ hexKeys (firstCubes blocks) :=
        (mem_hexKeys_firstCubes blocks _).mpr (List.mem_map_of_mem _ hc)
      simp only [hexKeys, List.map_append]
      exact firstIndex_append_of_mem _ this
    have hnew : firstIndex (hexOf b) (hexKeys (firstCubes blocks ++ [b]))
        = (firstCubes blocks).length := by
      simp only [hexKeys, List.map_append, List.map_cons, List.map_nil]
      rw [firstIndex_append_of_not_mem _
        (show hexOf b ∉ List.map hexOf (firstCubes blocks) from hmem'), firstIndex_cons_self]
      simp
    simp only [exportStep]
    rw [show b.material.color.hex = hexOf b from rfl, hget]
    simp only [truthy, Bool.false_eq_true, if_false, JsMap.set, hany, hsize]
    simp only [exportLoopSpec, hfirst, List.enum_append, List.map_append, List.flatMap_append,
      List.enumFrom_cons, List.enumFrom_nil, List.map_cons, List.map_nil, List.flatMap_cons,
      List.flatMap_nil, List.append_nil, hnew, materialBlock, Nat.zero_add]
    congr 1
    congr 1
    apply List.map_congr_left
    intro c hc
    rw [hold c hc]

theorem exportLoop_snoc (blocks : List Mesh) (b : Mesh) :
    exportLoop (blocks ++ [b]) = exportStep (exportLoop blocks) b := by
  simp [exportLoop, List.foldl_append]

theorem exportLoop_eq_spec (blocks : List Mesh) : exportLoop blocks = exportLoopSpec blocks := by
  induction blocks using List.reverseRecOn with
  | nil => rfl
  | append_singleton blocks b ih => rw [exportLoop_snoc, ih, exportStep_spec]

/-! ## Export: the material text -/

theorem length_flatMap_materialBlock (fs : List Mesh) (n : Nat) :
    ((fs.enumFrom n).flatMap fun kb => materialBlock kb.1 kb.2).length = 2 * fs.length := by
  induction fs generalizing n with
  | nil => rfl
  | cons b fs ih =>
    rw [List.enumFrom_cons, List.flatMap_cons, List.length_append, ih]
    simp only [materialBlock, List.length_cons, List.length_nil]
    omega

theorem toDigitsCore_acc (fuel n : Nat) (acc : List Char) :
    Nat.toDigitsCore 10 fuel n acc = Nat.toDigitsCore 10 fuel n [] ++ acc := by
  induction fuel generalizing n acc with
  | zero => simp [Nat.toDigitsCore]
  | succ fuel ih =>
    simp only [Nat.toDigitsCore]
    split
    · simp
    · rw [ih, ih (n / 10) [Nat.digitChar (n % 10)]]
      simp

theorem toDigitsCore_fuel (f1 f2 n : Nat) (acc : List Char) (h1 : n < f1) (h2 : n < f2) :
    Nat.toDigitsCore 10 f1 n acc = Nat.toDigitsCore 10 f2 n acc := by
  induction f1 generalizing f2 n acc with
  | zero => omega
  | succ f1 ih =>
    cases f2 with
    | zero => omega
    | succ f2 =>
      simp only [Nat.toDigitsCore]
      split
      · rfl
      · exact ih f2 (n / 10) _ (by omega) (by omega)

theorem toList_repr (n : Nat) : (Nat.repr n).toList = Nat.toDigitsCore 10 (n + 1) n [] := rfl

theorem toList_repr_of_lt (n : Nat) (h : n < 10) :
    (Nat.repr n).toList = [Nat.digitChar n] := by
  rw [toList_repr]
  simp only [Nat.toDigitsCore]
  have h0 : n / 10 = 0 := by omega
  have h1 : n % 10 = n := by omega
  simp [h0, h1]

theorem toList_repr_of_ge (n : Nat) (h : 10 ≤ n) :
    (Nat.repr n).toList = (Nat.repr (n / 10)).toList ++ [Nat.digitChar (n % 10)] := by
  have h0 : ¬ n / 10 = 0 := by omega
  have e : Nat.toDigitsCore 10 (n + 1) n []
      = Nat.toDigitsCore 10 n (n / 10) [Nat.digitChar (n % 10)] := by
    simp only [Nat.toDigitsCore]
    rw [if_neg h0]
  rw [toList_repr, e, toDigitsCore_acc,
    toDigitsCore_fuel n (n / 10 + 1) (n / 10) [] (by omega) (by omega), ← toList_repr]

theorem intercalate_pairs {α : Type} (sep : JsString) (a b : α → JsString) (l : List α) :
    sep.intercalate (l.flatMap fun p => [a p, b p])
      = sep.intercalate (l.map fun p => a p ++ sep ++ b p) := by
  induction l with
  | nil => rfl
  | cons p l ih =>
    cases l with
    | nil => simp [List.intercalate]
    | cons q l =>
      simp only [List.intercalate, List.flatMap_cons, List.map_cons, List.cons_append,
        List.nil_append, List.intersperse_cons₂, List.flatten_cons, List.append_assoc] at ih ⊢
      rw [ih]


theorem padded_repr (n : Nat) :
    List.replicate (5 - (Nat.repr n).toList.length) '0' ++ (Nat.repr n).toList
      = (Nat.repr (n / 10000)).toList
        ++ [Nat.digitChar (n / 1000 % 10), Nat.digitChar (n / 100 % 10),
            Nat.digitChar (n / 10 % 10), Nat.digitChar (n % 10)] := by
  have z : Nat.digitChar 0 = '0' := rfl
  by_cases h1 : n < 10
  · rw [toList_repr_of_lt n h1, show n / 10000 = 0 by omega, show n / 1000 % 10 = 0 by omega,
      show n / 100 % 10 = 0 by omega, show n / 10 % 10 = 0 by omega, show n % 10 = n by omega,
      toList_repr_of_lt 0 (by omega), z]
    rfl
  have s1 := toList_repr_of_ge n (by omega)
  by_cases h2 : n < 100
  · rw [s1, toList_repr_of_lt (n / 10) (by omega), show n / 10000 = 0 by omega,
      show n / 1000 % 10 = 0 by omega, show n / 100 % 10 = 0 by omega,
      show n / 10 % 10 = n / 10 by omega, toList_repr_of_lt 0 (by omega), z]
    rfl
  have s2 := toList_repr_of_ge (n / 10) (by omega)
  rw [Nat.div_div_eq_div_mul] at s2
  by_cases h3 : n < 1000
  · rw [s1, s2, toList_repr_of_lt (n / (10 * 10)) (by omega), show n / 10000 = 0 by omega,
      show n / 1000 % 10 = 0 by omega, show n / 100 % 10 = n / (10 * 10) by omega,
      toList_repr_of_lt 0 (by omega), z]
    rfl
  have s3 := toList_repr_of_ge (n / (10 * 10)) (by omega)
  rw [Nat.div_div_eq_div_mul] at s3
  by_cases h4 : n < 10000
  · rw [s1, s2, s3, toList_repr_of_lt (n / (10 * 10 * 10)) (by omega),
      show n / 10000 = 0 by omega, show n / 1000 % 10 = n / (10 * 10 * 10) by omega,
      show n / 100 % 10 = n / (10 * 10) % 10 by omega, toList_repr_of_lt 0 (by omega), z]
    rfl
  have s4 := toList_repr_of_ge (n / (10 * 10 * 10)) (by omega)
  rw [Nat.div_div_eq_div_mul] at s4
  have hne : (Nat.repr (n / 10000)).toList ≠ [] := by
    by_cases h5 : n / 10000 < 10
    · rw [toList_repr_of_lt _ h5]; simp
    · rw [toList_repr_of_ge _ (by omega)]; simp
  have hlen : 0 < (Nat.repr (n / 10000)).toList.length := List.length_pos.mpr hne
  rw [s1, s2, s3, s4]
  simp only [show 10 * 10 * 10 * 10 = 10000 by rfl, show 10 * 10 * 10 = 1000 by rfl,
    show 10 * 10 = 100 by rfl, List.length_append, List.length_cons, List.length_nil,
    List.append_assoc, List.cons_append, List.nil_append]
  rw [show 5 - ((Nat.repr (n / 10000)).toList.length + (0 + 1 + (0 + 1 + (0 + 1 + (0 + 1))))) = 0
    by omega]
  rfl

/-- The text of `toFixed(4)`: the sign, the integer part of the rounded
magnitude in decimal, the point, and its four decimal places. -/
theorem toFixed4_eq (x : ℚ) :
    toFixed4 x
      = (if x < 0 then ['-'] else [])
        ++ (Nat.repr ((Int.floor (|x| * 10000 + 1 / 2)).toNat / 10000)).toList
        ++ ['.', Nat.digitChar ((Int.floor (|x| * 10000 + 1 / 2)).toNat / 1000 % 10),
            Nat.digitChar ((Int.floor (|x| * 10000 + 1 / 2)).toNat / 100 % 10),
            Nat.digitChar ((Int.floor (|x| * 10000 + 1 / 2)).toNat / 10 % 10),
            Nat.digitChar ((Int.floor (|x| * 10000 + 1 / 2)).toNat % 10)] := by
  simp only [toFixed4]
  rw [padded_repr]
  simp [List.take_append_eq_append_take, List.drop_append_eq_append_drop]


theorem toFixed4_of_round (x : ℚ) (n : Nat) (hx : 0 ≤ x) (h1 : (n : ℚ) ≤ x * 10000 + 1 / 2)
    (h2 : x * 10000 + 1 / 2 < (n : ℚ) + 1) :
    toFixed4 x
      = (Nat.repr (n / 10000)).toList
        ++ ['.', Nat.digitChar (n / 1000 % 10), Nat.digitChar (n / 100 % 10),
            Nat.digitChar (n / 10 % 10), Nat.digitChar (n % 10)] := by
  have hfloor : Int.floor (|x| * 10000 + 1 / 2) = (n : ℤ) := by
    rw [abs_of_nonneg hx, Int.floor_eq_iff]
    exact ⟨by exact_mod_cast h1, by exact_mod_cast h2⟩
  rw [toFixed4_eq, hfloor, if_neg (not_lt.mpr hx)]
  simp

theorem toFixed4_one : toFixed4 1 = "1.0000".toList := by
  rw [toFixed4_of_round 1 10000 (by norm_num) (by norm_num) (by norm_num)]
  decide

theorem toFixed4_zero : toFixed4 0 = "0.0000".toList := by
  rw [toFixed4_of_round 0 0 (by norm_num) (by norm_num) (by norm_num)]
  decide

theorem toFixed4_third : toFixed4 (1 / 3) = "0.3333".toList := by
  rw [toFixed4_of_round (1 / 3) 3333 (by norm_num) (by norm_num) (by norm_num)]
  decide

theorem toFixed4_two_thirds : toFixed4 (2 / 3) = "0.6667".toList := by
  rw [toFixed4_of_round (2 / 3) 6667 (by norm_num) (by norm_num) (by norm_num)]
  decide

theorem toFixed4_tie : toFixed4 (1 / 20000) = "0.0001".toList := by
  rw [toFixed4_of_round (1 / 20000) 1 (by norm_num) (by norm_num) (by norm_num)]
  decide

theorem mtlText_red_green_red (parse : List Mesh → JsString) :
    (exportTowerOBJ parse [cubeOf red, cubeOf green, cubeOf red]).mtlText
      = "newmtl mat_0\nKd 1.0000 0.0000 0.0000\n\nnewmtl mat_1\nKd 0.0000 1.0000 0.0000\n".toList := by
  have hfirst : firstCubes [cubeOf red, cubeOf green, cubeOf red] = [cubeOf red, cubeOf green] :=
    rfl
  show jsJoin "\n".toList (exportLoop [cubeOf red, cubeOf green, cubeOf red]).mtlLines = _
  rw [exportLoop_eq_spec]
  simp only [exportLoopSpec, hfirst]
  simp only [List.enum, List.enumFrom_cons, List.enumFrom_nil, List.flatMap_cons,
    List.flatMap_nil, materialBlock, kdLine, cubeOf, red, green, toFixed4_one, toFixed4_zero]
  decide

/-- C1. Let `D` be the number of distinct hex keys among the cubes. The cubes
that are the first with their hex key are `D` cubes with pairwise different
keys, they cover every key, each is the first cube of the list with its key,
and they stand in the order in which their keys first appear. The material
lines are one block for each of them and nothing else: block number `k` is the
line `newmtl mat_k` followed by the line `Kd r g b` with a line break of its
own, where `r`, `g`, `b` are the channels of the colour of the `k`-th such
cube written with four decimal places; so there are `2 * D` lines, and the
material text is the `D` blocks `newmtl mat_k`, line break, `Kd r g b`, line
break, with one more line break between two blocks. Every cube is cloned
under the name `mat_k` of its key, whether the key was new or already seen.
A number is written as its sign, the integer part of its magnitude rounded to
a multiple of `1 / 10000` (upwards on a tie), the point and four digits. For
cubes coloured `ff0000`, `00ff00`, `ff0000` the text is the block of `mat_0`
with `1.0000 0.0000 0.0000` and the block of `mat_1` with
`0.0000 1.0000 0.0000`. -/
theorem material_blocks (parse : List Mesh → JsString) (blocks : List Mesh) :
    ((hexKeys (firstCubes blocks)).Nodup ∧
      (∀ h, h ∈ hexKeys (firstCubes blocks) ↔ h ∈ hexKeys blocks) ∧
      (∀ b ∈ firstCubes blocks, blocks.find? (fun c => hexOf c = hexOf b) = some b) ∧
      (hexKeys (firstCubes blocks)).Pairwise
        (fun x y => firstIndex x (hexKeys blocks) < firstIndex y (hexKeys blocks)) ∧
      (firstCubes blocks).length = (hexKeys blocks).toFinset.card) ∧
    (exportLoop blocks).mtlLines
      = (firstCubes blocks).enum.flatMap
          (fun kb => ["newmtl ".toList ++ ("mat_".toList ++ (Nat.repr kb.1).toList),
            "Kd ".toList ++ toFixed4 kb.2.material.color.r ++ " ".toList
              ++ toFixed4 kb.2.material.color.g ++ " ".toList
              ++ toFixed4 kb.2.material.color.b ++ "\n".toList]) ∧
    (exportLoop blocks).mtlLines.length = 2 * (hexKeys blocks).toFinset.card ∧
    (exportTowerOBJ parse blocks).mtlText
      = "\n".toList.intercalate ((firstCubes blocks).enum.map
          (fun kb => "newmtl ".toList ++ ("mat_".toList ++ (Nat.repr kb.1).toList)
            ++ "\n".toList
            ++ ("Kd ".toList ++ toFixed4 kb.2.material.color.r ++ " ".toList
              ++ toFixed4 kb.2.material.color.g ++ " ".toList
              ++ toFixed4 kb.2.material.color.b ++ "\n".toList))) ∧
    (exportLoop blocks).towerGroup
      = blocks.map (fun b =>
          { b with material :=
            { b.material with name := "mat_".toList
                ++ (Nat.repr (firstIndex (hexOf b) (hexKeys (firstCubes blocks)))).toList } }) ∧
    (∀ x : ℚ, toFixed4 x
      = (if x < 0 then ['-'] else [])
        ++ (Nat.repr ((Int.floor (|x| * 10000 + 1 / 2)).toNat / 10000)).toList
        ++ ['.', Nat.digitChar ((Int.floor (|x| * 10000 + 1 / 2)).toNat / 1000 % 10),
            Nat.digitChar ((Int.floor (|x| * 10000 + 1 / 2)).toNat / 100 % 10),
            Nat.digitChar ((Int.floor (|x| * 10000 + 1 / 2)).toNat / 10 % 10),
            Nat.digitChar ((Int.floor (|x| * 10000 + 1 / 2)).toNat % 10)]) ∧
    (toFixed4 1 = "1.0000".toList ∧ toFixed4 0 = "0.0000".toList ∧
      toFixed4 (1 / 3) = "0.3333".toList ∧ toFixed4 (2 / 3) = "0.6667".toList ∧
      toFixed4 (1 / 20000) = "0.0001".toList) ∧
    (exportTowerOBJ parse [cubeOf red, cubeOf green, cubeOf red]).mtlText
      = "newmtl mat_0\nKd 1.0000 0.0000 0.0000\n\nnewmtl mat_1\nKd 0.0000 1.0000 0.0000\n".toList := by
  refine ⟨⟨nodup_keys_firstSeenBy hexOf blocks, mem_hexKeys_firstCubes blocks,
    fun b hb => find?_of_mem_firstSeenBy hexOf blocks b hb,
    pairwise_keys_firstSeenBy hexOf blocks, length_firstSeenBy hexOf blocks⟩, ?_, ?_, ?_, ?_,
    toFixed4_eq, ⟨toFixed4_one, toFixed4_zero, toFixed4_third, toFixed4_two_thirds,
      toFixed4_tie⟩, mtlText_red_green_red parse⟩
  · rw [exportLoop_eq_spec]; rfl
  · rw [exportLoop_eq_spec]
    simp only [exportLoopSpec, List.enum]
    rw [length_flatMap_materialBlock]
    congr 1
    exact length_firstSeenBy hexOf blocks
  · show jsJoin "\n".toList (exportLoop blocks).mtlLines = _
    rw [exportLoop_eq_spec]
    exact intercalate_pairs "\n".toList
      (fun kb : Nat × Mesh => "newmtl ".toList ++ ("mat_".toList ++ (Nat.repr kb.1).toList))
      (fun kb : Nat × Mesh => "Kd ".toList ++ toFixed4 kb.2.material.color.r ++ " ".toList
        ++ toFixed4 kb.2.material.color.g ++ " ".toList
        ++ toFixed4 kb.2.material.color.b ++ "\n".toList) (firstCubes blocks).enum
  · rw [exportLoop_eq_spec]; rfl

/-- C7. Without cubes, and with an exporter that writes nothing for a group
without children, the material text is empty and the mesh text is the line
`mtllib tower.mtl` alone. -/
theorem export_empty (parse : List Mesh → JsString) (h : parse [] = []) :
    (exportTowerOBJ parse []).mtlText = [] ∧
    (exportTowerOBJ parse []).objText = "mtllib tower.mtl\n".toList := by
  constructor
  · rfl
  · simp [exportTowerOBJ, exportLoop, h, rewriteObj, replacePlaceholders, replaceGo]

theorem export_empty_witness :
    exporterParse (fun _ => "v 0 0 0\n".toList) [] = [] ∧
    (exportTowerOBJ (exporterParse fun _ => "v 0 0 0\n".toList) []).mtlText = [] ∧
    (exportTowerOBJ (exporterParse fun _ => "v 0 0 0\n".toList) []).objText
      = "mtllib tower.mtl\n".toList :=
  ⟨rfl, export_empty (exporterParse fun _ => "v 0 0 0\n".toList) rfl⟩

/-! ## Rewrite: literals and white space -/

theorem matchLiteral_append (lit rest : JsString) : matchLiteral lit (lit ++ rest) = some rest := by
  induction lit with
  | nil => cases rest <;> rfl
  | cons a lit ih => simp [matchLiteral, ih]

theorem eq_of_matchLiteral {lit s rest : JsString} (h : matchLiteral lit s = some rest) :
    s = lit ++ rest := by
  induction lit generalizing s with
  | nil =>
    cases s <;> simp_all [matchLiteral]
  | cons a lit ih =>
    cases s with
    | nil => simp [matchLiteral] at h
    | cons b s =>
      by_cases hab : a = b
      · simp only [matchLiteral, hab, if_true] at h
        rw [hab, ih h, List.cons_append]
      · simp [matchLiteral, hab] at h

theorem dropWhile_append_of_head {p : Char → Bool} (ws rest : JsString)
    (hws : ∀ c ∈ ws, p c = true) (hrest : ∀ c ∈ rest.head?, p c = false) :
    (ws ++ rest).dropWhile p = rest := by
  induction ws with
  | nil =>
    cases rest with
    | nil => rfl
    | cons c rest =>
      have : p c = false := hrest c (by simp)
      simp [List.dropWhile_cons, this]
  | cons w ws ih =>
    have hw : p w = true := hws w (by simp)
    simp only [List.cons_append, List.dropWhile_cons, hw, if_true]
    exact ih fun c hc => hws c (List.mem_cons_of_mem _ hc)

theorem matchSpaces_append (ws rest : JsString) (hne : ws ≠ [])
    (hws : ∀ c ∈ ws, isWhiteSpace c = true) (hrest : ∀ c ∈ rest.head?, isWhiteSpace c = false) :
    matchSpaces (ws ++ rest) = some rest := by
  cases ws with
  | nil => exact absurd rfl hne
  | cons w ws =>
    have hw : isWhiteSpace w = true := hws w (by simp)
    simp only [List.cons_append, matchSpaces, hw, if_true]
    rw [dropWhile_append_of_head ws rest (fun c hc => hws c (List.mem_cons_of_mem _ hc)) hrest]

theorem head?_dropWhile_false (p : Char → Bool) (s : JsString) :
    ∀ c ∈ (s.dropWhile p).head?, p c = false := by
  induction s with
  | nil => simp
  | cons a s ih =>
    by_cases ha : p a = true
    · simpa [List.dropWhile_cons, ha] using ih
    · simp only [Bool.not_eq_true] at ha
      simp [List.dropWhile_cons, ha]

theorem exists_of_matchSpaces {s rest : JsString} (h : matchSpaces s = some rest) :
    ∃ ws, ws ≠ [] ∧ (∀ c ∈ ws, isWhiteSpace c = true) ∧ s = ws ++ rest ∧
      ∀ c ∈ rest.head?, isWhiteSpace c = false := by
  cases s with
  | nil => simp [matchSpaces] at h
  | cons c cs =>
    by_cases hc : isWhiteSpace c = true
    · simp only [matchSpaces, hc, if_true, Option.some.injEq] at h
      refine ⟨c :: cs.takeWhile isWhiteSpace, by simp, ?_, ?_, ?_⟩
      · intro d hd
        rcases List.mem_cons.mp hd with rfl | hd
        · exact hc
        · exact List.mem_takeWhile_imp hd
      · rw [← h, List.cons_append, List.takeWhile_append_dropWhile]
      · rw [← h]
        exact head?_dropWhile_false _ _
    · simp [matchSpaces, hc] at h

/-! ## Rewrite: the placeholder pattern -/

theorem take_length_sub_append (m rest : JsString) :
    (m ++ rest).take ((m ++ rest).length - rest.length) = m := by
  simp

theorem matchPlaceholder_append {m : JsString} (hm : IsPlaceholder m) (rest : JsString) :
    matchPlaceholder (m ++ rest) = some (m, rest) := by
  obtain ⟨ws, hne, hws, rfl⟩ := hm
  have h1 : matchLiteral "usemtl".toList
      ("usemtl".toList ++ ws ++ "MeshStandardMaterial".toList ++ rest)
      = some (ws ++ ("MeshStandardMaterial".toList ++ rest)) := by
    rw [List.append_assoc, List.append_assoc]
    exact matchLiteral_append _ _
  have h2 : matchSpaces (ws ++ ("MeshStandardMaterial".toList ++ rest))
      = some ("MeshStandardMaterial".toList ++ rest) := by
    apply matchSpaces_append ws _ hne hws
    intro c hc
    have : c = 'M' := by simpa using hc.symm
    subst this
    rfl
  have h3 : matchLiteral "MeshStandardMaterial".toList ("MeshStandardMaterial".toList ++ rest)
      = some rest := matchLiteral_append _ _
  unfold matchPlaceholder
  rw [h1, Option.some_bind, h2, Option.some_bind, h3, Option.map_some']
  rw [take_length_sub_append]

theorem isPlaceholder_of_matchPlaceholder {s m rest : JsString}
    (h : matchPlaceholder s = some (m, rest)) : IsPlaceholder m ∧ s = m ++ rest := by
  simp only [matchPlaceholder, Option.bind_eq_some, Option.map_eq_some', Prod.mk.injEq] at h
  obtain ⟨s1, h1, s2, h2, s3, h3, hm, hr⟩ := h
  subst hr
  have e1 := eq_of_matchLiteral h1
  obtain ⟨ws, hne, hws, e2, -⟩ := exists_of_matchSpaces h2
  have e3 := eq_of_matchLiteral h3
  have hs : s = ("usemtl".toList ++ ws ++ "MeshStandardMaterial".toList) ++ s3 := by
    rw [e1, e2, e3]; simp
  have hm' : m = "usemtl".toList ++ ws ++ "MeshStandardMaterial".toList := by
    rw [← hm, hs, take_length_sub_append]
  exact ⟨⟨ws, hne, hws, hm'⟩, by rw [hm']; exact hs⟩

theorem placeholderAt_iff (text : JsString) (i : Nat) :
    PlaceholderAt text i ↔ matchPlaceholder (text.drop i) ≠ none := by
  constructor
  · rintro ⟨m, rest, hm, hdrop, -⟩
    rw [hdrop, matchPlaceholder_append hm]
    simp
  · intro h
    cases hmp : matchPlaceholder (text.drop i) with
    | none => exact absurd hmp h
    | some mr =>
      obtain ⟨m, rest⟩ := mr
      obtain ⟨hm, hs⟩ := isPlaceholder_of_matchPlaceholder hmp
      refine ⟨m, rest, hm, hs, ?_⟩
      by_contra hlt
      rw [List.drop_eq_nil_of_le (Nat.le_of_not_lt hlt)] at hmp
      simp [matchPlaceholder, matchLiteral] at hmp

/-! ## Rewrite: the reference pattern -/

theorem takeWhile_append_of_head {p : Char → Bool} (ds rest : JsString)
    (hds : ∀ c ∈ ds, p c = true) (hrest : ∀ c ∈ rest.head?, p c = false) :
    (ds ++ rest).takeWhile p = ds := by
  induction ds with
  | nil =>
    cases rest with
    | nil => rfl
    | cons c rest =>
      have : p c = false := hrest c (by simp)
      simp [List.takeWhile_cons, this]
  | cons d ds ih =>
    have hd : p d = true := hds d (by simp)
    simp only [List.cons_append, List.takeWhile_cons, hd, if_true]
    rw [ih fun c hc => hds c (List.mem_cons_of_mem _ hc)]

theorem matchReference_append {r name : JsString} (hr : IsReference r name) (after : JsString)
    (hafter : ∀ d ∈ after.head?, d.isDigit = false) :
    matchReference (r ++ after) = some name := by
  obtain ⟨ws, ds, hne, hws, hdne, hds, rfl, rfl⟩ := hr
  have h1 : matchLiteral "usemtl".toList
      ("usemtl".toList ++ ws ++ ("mat_".toList ++ ds) ++ after)
      = some (ws ++ ("mat_".toList ++ (ds ++ after))) := by
    simp only [List.append_assoc]
    exact matchLiteral_append _ _
  have h2 : matchSpaces (ws ++ ("mat_".toList ++ (ds ++ after)))
      = some ("mat_".toList ++ (ds ++ after)) := by
    apply matchSpaces_append ws _ hne hws
    intro c hc
    have : c = 'm' := by simpa using hc.symm
    subst this
    rfl
  have h3 : matchLiteral "mat_".toList ("mat_".toList ++ (ds ++ after)) = some (ds ++ after) :=
    matchLiteral_append _ _
  unfold matchReference
  rw [h1, Option.some_bind, h2, Option.some_bind, h3, Option.some_bind]
  cases ds with
  | nil => exact absurd rfl hdne
  | cons d ds =>
    have hd : d.isDigit = true := hds d (by simp)
    have := takeWhile_append_of_head (d :: ds) after hds hafter
    simp only [List.cons_append] at this ⊢
    simp only [hd, if_true, this]

theorem isReference_of_matchReference {s name : JsString} (h : matchReference s = some name) :
    ∃ r after, IsReference r name ∧ s = r ++ after ∧ ∀ d ∈ after.head?, d.isDigit = false := by
  simp only [matchReference, Option.bind_eq_some] at h
  obtain ⟨s1, h1, s2, h2, s3, h3, h4⟩ := h
  have e1 := eq_of_matchLiteral h1
  obtain ⟨ws, hne, hws, e2, -⟩ := exists_of_matchSpaces h2
  have e3 := eq_of_matchLiteral h3
  cases s3 with
  | nil => simp at h4
  | cons d ds =>
    by_cases hd : d.isDigit = true
    · simp only [hd, if_true, Option.some.injEq] at h4
      refine ⟨"usemtl".toList ++ ws ++ name, (d :: ds).dropWhile Char.isDigit,
        ⟨ws, (d :: ds).takeWhile Char.isDigit, hne, hws, ?_, ?_, h4.symm, rfl⟩, ?_,
        head?_dropWhile_false _ _⟩
      · simp [List.takeWhile_cons, hd]
      · intro c hc
        exact List.mem_takeWhile_imp hc
      · rw [e1, e2, e3, ← h4]
        simp only [List.append_assoc]
        rw [List.takeWhile_append_dropWhile]
    · simp [hd] at h4

theorem matchReference_ne_none_of_isReference {r name rest : JsString}
    (hr : IsReference r name) : matchReference (r ++ rest) ≠ none := by
  obtain ⟨ws, ds, hne, hws, hdne, hds, rfl, rfl⟩ := hr
  have hsplit : "usemtl".toList ++ ws ++ ("mat_".toList ++ ds) ++ rest
      = ("usemtl".toList ++ ws ++ ("mat_".toList ++ (ds ++ rest).takeWhile Char.isDigit))
        ++ (ds ++ rest).dropWhile Char.isDigit := by
    simp only [List.append_assoc]
    rw [List.takeWhile_append_dropWhile]
  have href : IsReference
      ("usemtl".toList ++ ws ++ ("mat_".toList ++ (ds ++ rest).takeWhile Char.isDigit))
      ("mat_".toList ++ (ds ++ rest).takeWhile Char.isDigit) := by
    refine ⟨ws, _, hne, hws, ?_, fun c hc => List.mem_takeWhile_imp hc, rfl, rfl⟩
    cases ds with
    | nil => exact absurd rfl hdne
    | cons d ds =>
      have hd : d.isDigit = true := hds d (by simp)
      simp [List.takeWhile_cons, hd]
  rw [hsplit, matchReference_append href _ (head?_dropWhile_false _ _)]
  simp

theorem matchReference_eq_none_iff (s : JsString) :
    matchReference s = none ↔ ∀ r name rest, IsReference r name → s ≠ r ++ rest := by
  constructor
  · intro h r name rest hr hs
    exact matchReference_ne_none_of_isReference hr (hs ▸ h)
  · intro h
    cases hm : matchReference s with
    | none => rfl
    | some name =>
      obtain ⟨r, after, hr, hs, -⟩ := isReference_of_matchReference hm
      exact absurd hs (h r name after hr)

theorem isReference_ne_nil {r name : JsString} (hr : IsReference r name) : r ≠ [] := by
  obtain ⟨ws, ds, -, -, -, -, -, rfl⟩ := hr
  simp

theorem firstReference_eq_some_iff (s name : JsString) :
    firstReference s = some name ↔ FirstReferenceIs s name := by
  constructor
  · intro h
    induction s with
    | nil => simp [firstReference] at h
    | cons c cs ih =>
      cases hm : matchReference (c :: cs) with
      | some n =>
        simp only [firstReference, hm, Option.some.injEq] at h
        subst h
        obtain ⟨r, after, hr, hs, hafter⟩ := isReference_of_matchReference hm
        exact ⟨[], r, after, by simpa using hs, hr, hafter, fun j hj => absurd hj (by simp)⟩
      | none =>
        simp only [firstReference, hm] at h
        obtain ⟨before, r, after, hs, hr, hafter, hbefore⟩ := ih h
        refine ⟨c :: before, r, after, by simp [hs], hr, hafter, ?_⟩
        intro j hj r2 name2 rest hr2
        cases j with
        | zero => exact (matchReference_eq_none_iff _).mp hm r2 name2 rest hr2
        | succ j =>
          exact hbefore j (by simpa using hj) r2 name2 rest hr2
  · rintro ⟨before, r, after, hs, hr, hafter, hbefore⟩
    induction before generalizing s with
    | nil =>
      have hs' : s = r ++ after := by simpa using hs
      have hm := matchReference_append hr after hafter
      rw [← hs'] at hm
      cases s with
      | nil => exact absurd (List.append_eq_nil.mp hs'.symm).1 (isReference_ne_nil hr)
      | cons c cs => simp [firstReference, hm]
    | cons c before ih =>
      have hs' : s = c :: (before ++ r ++ after) := by simpa using hs
      subst hs'
      have hnone : matchReference (c :: (before ++ r ++ after)) = none :=
        (matchReference_eq_none_iff _).mpr fun r2 name2 rest hr2 =>
          hbefore 0 (by simp) r2 name2 rest hr2
      simp only [firstReference, hnone]
      apply ih _ rfl
      intro j hj r2 name2 rest hr2
      exact hbefore (j + 1) (by simpa using hj) r2 name2 rest hr2

theorem firstReference_eq_none_iff (s : JsString) : firstReference s = none ↔ NoReference s := by
  constructor
  · intro h before r name after hr hs
    induction before generalizing s with
    | nil =>
      cases s with
      | nil => exact isReference_ne_nil hr (List.append_eq_nil.mp (by simpa using hs.symm)).1
      | cons c cs =>
        cases hm : matchReference (c :: cs) with
        | some n => simp [firstReference, hm] at h
        | none =>
          exact (matchReference_eq_none_iff _).mp hm r name after hr (by simpa using hs)
    | cons b before ih =>
      cases s with
      | nil => simp at hs
      | cons c cs =>
        cases hm : matchReference (c :: cs) with
        | some n => simp [firstReference, hm] at h
        | none =>
          simp only [firstReference, hm] at h
          exact ih cs h (by simpa using (List.cons.inj hs).2)
  · intro h
    cases hf : firstReference s with
    | none => rfl
    | some name =>
      obtain ⟨before, r, after, hs, hr, -, -⟩ := (firstReference_eq_some_iff s name).mp hf
      exact absurd hs (h before r name after hr)

/-! ## Rewrite: the scan of `replace` -/

theorem replaceGo_cons_succ (objText : JsString) (skip offset : Nat) (c : Char)
    (cs : JsString) :
    replaceGo objText (skip + 1) offset (c :: cs) = replaceGo objText skip (offset + 1) cs :=
  rfl

theorem replaceGo_cons_none (objText : JsString) (offset : Nat) (c : Char) (cs : JsString)
    (h : matchPlaceholder (c :: cs) = none) :
    replaceGo objText 0 offset (c :: cs) = c :: replaceGo objText 0 (offset + 1) cs := by
  simp only [replaceGo, h]

theorem replaceGo_cons_some (objText : JsString) (offset : Nat) (c : Char)
    (cs m rest : JsString) (h : matchPlaceholder (c :: cs) = some (m, rest)) :
    replaceGo objText 0 offset (c :: cs)
      = replaceCallback objText m offset ++ replaceGo objText (m.length - 1) (offset + 1) cs := by
  simp only [replaceGo, h]

theorem firstReference_cons_none (c : Char) (cs : JsString)
    (h : matchReference (c :: cs) = none) : firstReference (c :: cs) = firstReference cs := by
  simp only [firstReference, h]

theorem replaceGo_skip (objText : JsString) (a b : JsString) (offset : Nat) :
    replaceGo objText a.length offset (a ++ b) = replaceGo objText 0 (offset + a.length) b := by
  induction a generalizing offset with
  | nil => rfl
  | cons c a ih =>
    rw [List.length_cons, List.cons_append, replaceGo_cons_succ, ih (offset + 1)]
    congr 1
    omega

theorem replaceGo_of_no_match (objText pre rest : JsString) (offset : Nat)
    (h : ∀ i < pre.length, matchPlaceholder ((pre ++ rest).drop i) = none) :
    replaceGo objText 0 offset (pre ++ rest)
      = pre ++ replaceGo objText 0 (offset + pre.length) rest := by
  induction pre generalizing offset with
  | nil => rfl
  | cons c pre ih =>
    have h0 : matchPlaceholder (c :: (pre ++ rest)) = none := h 0 (by simp)
    rw [List.cons_append, replaceGo_cons_none _ _ _ _ h0, List.length_cons,
      ih (offset + 1) fun i hi => h (i + 1) (by simpa using hi), List.cons_append,
      show offset + 1 + pre.length = offset + (pre.length + 1) by omega]

theorem replaceGo_congr (t1 t2 : JsString) (s : JsString) (skip o1 o2 : Nat)
    (h : ∀ j, t1.drop (o1 + j) = t2.drop (o2 + j)) :
    replaceGo t1 skip o1 s = replaceGo t2 skip o2 s := by
  induction s generalizing skip o1 o2 with
  | nil => cases skip <;> rfl
  | cons c cs ih =>
    have hshift : ∀ j, t1.drop (o1 + 1 + j) = t2.drop (o2 + 1 + j) := by
      intro j
      have := h (1 + j)
      simpa [Nat.add_assoc] using this
    cases skip with
    | succ k => rw [replaceGo_cons_succ, replaceGo_cons_succ]; exact ih k _ _ hshift
    | zero =>
      cases hmp : matchPlaceholder (c :: cs) with
      | none =>
        rw [replaceGo_cons_none _ _ _ _ hmp, replaceGo_cons_none _ _ _ _ hmp, ih 0 _ _ hshift]
      | some mr =>
        obtain ⟨m, r⟩ := mr
        rw [replaceGo_cons_some _ _ _ _ _ _ hmp, replaceGo_cons_some _ _ _ _ _ _ hmp,
          ih _ _ _ hshift]
        have h0 := h 0
        simp only [Nat.add_zero] at h0
        simp only [replaceCallback, h0]

theorem firstReference_append_of_ne_u (a b : JsString) (h : ∀ c ∈ a, c ≠ 'u') :
    firstReference (a ++ b) = firstReference b := by
  induction a with
  | nil => rfl
  | cons c a ih =>
    have hc : 'u' ≠ c := fun e => h c (by simp) e.symm
    have hnone : matchReference (c :: (a ++ b)) = none := by
      simp [matchReference, matchLiteral, hc]
    rw [List.cons_append, firstReference_cons_none _ _ hnone]
    exact ih fun d hd => h d (List.mem_cons_of_mem _ hd)

theorem isWhiteSpace_ne_u {c : Char} (h : isWhiteSpace c = true) : c ≠ 'u' := by
  rintro rfl
  exact absurd h (by decide)

theorem firstReference_placeholder_append {m : JsString} (hm : IsPlaceholder m)
    (post : JsString) : firstReference (m ++ post) = firstReference post := by
  obtain ⟨ws, hne, hws, rfl⟩ := hm
  have h2 : matchSpaces (ws ++ ("MeshStandardMaterial".toList ++ post))
      = some ("MeshStandardMaterial".toList ++ post) := by
    apply matchSpaces_append ws _ hne hws
    intro c hc
    have : c = 'M' := by simpa using hc.symm
    subst this
    rfl
  have hnone : matchReference ("usemtl".toList ++ ws ++ "MeshStandardMaterial".toList ++ post)
      = none := by
    have h1 : matchLiteral "usemtl".toList
        ("usemtl".toList ++ ws ++ "MeshStandardMaterial".toList ++ post)
        = some (ws ++ ("MeshStandardMaterial".toList ++ post)) := by
      simp only [List.append_assoc]
      exact matchLiteral_append _ _
    unfold matchReference
    rw [h1, Option.some_bind, h2, Option.some_bind]
    rfl
  have hshape : "usemtl".toList ++ ws ++ "MeshStandardMaterial".toList ++ post
      = 'u' :: (("semtl".toList ++ ws ++ "MeshStandardMaterial".toList) ++ post) := by
    simp
  rw [hshape] at hnone ⊢
  rw [firstReference_cons_none _ _ hnone]
  apply firstReference_append_of_ne_u
  intro c hc
  simp only [List.mem_append] at hc
  rcases hc with (hc | hc) | hc
  · have : ∀ d ∈ "semtl".toList, d ≠ 'u' := by decide
    exact this c hc
  · exact isWhiteSpace_ne_u (hws c hc)
  · have : ∀ d ∈ "MeshStandardMaterial".toList, d ≠ 'u' := by decide
    exact this c hc

theorem replacePlaceholders_split (pre m post : JsString) (hm : IsPlaceholder m)
    (hpre : ∀ i < pre.length, ¬ PlaceholderAt (pre ++ m ++ post) i) :
    replacePlaceholders (pre ++ m ++ post)
      = pre ++ (match firstReference post with
          | some name => "usemtl ".toList ++ name
          | none => m) ++ replacePlaceholders post := by
  have hnomatch : ∀ i < pre.length, matchPlaceholder ((pre ++ (m ++ post)).drop i) = none := by
    intro i hi
    have := hpre i hi
    rw [placeholderAt_iff, not_not, List.append_assoc] at this
    exact this
  have hmatch := matchPlaceholder_append hm post
  obtain ⟨c, m', rfl⟩ : ∃ c m', m = c :: m' := by
    obtain ⟨ws, -, -, rfl⟩ := hm
    exact ⟨'u', "semtl".toList ++ ws ++ "MeshStandardMaterial".toList, by simp⟩
  unfold replacePlaceholders
  rw [List.append_assoc, replaceGo_of_no_match _ _ _ _ hnomatch]
  simp only [List.cons_append] at hmatch
  rw [List.cons_append, replaceGo_cons_some _ _ _ _ _ _ hmatch, List.length_cons,
    Nat.add_sub_cancel, Nat.zero_add, List.append_assoc]
  congr 1
  have hdrop : (pre ++ c :: (m' ++ post)).drop pre.length = (c :: m') ++ post := by
    simp
  rw [replaceGo_skip, replaceCallback, hdrop, firstReference_placeholder_append hm]
  congr 1
  apply replaceGo_congr
  intro j
  have : pre.length + 1 + m'.length + j = (pre ++ c :: m').length + j := by
    simp only [List.length_append, List.length_cons]
    omega
  rw [this, show pre ++ c :: (m' ++ post) = (pre ++ c :: m') ++ post by simp,
    Nat.zero_add, ← List.drop_drop]
  simp

theorem replacePlaceholders_of_no_placeholder (text : JsString)
    (h : ∀ i, ¬ PlaceholderAt text i) : replacePlaceholders text = text := by
  have := replaceGo_of_no_match text text [] 0 (by
    intro i _
    have := h i
    rw [placeholderAt_iff, not_not] at this
    simpa using this)
  simpa [replacePlaceholders, replaceGo] using this

/-! ## Mesh text: characters of names and geometry -/

theorem isDigit_digitChar (m : Nat) (h : m < 10) : (Nat.digitChar m).isDigit = true := by
  interval_cases m <;> rfl

theorem isDigit_of_mem_toDigitsCore (fuel n : Nat) (acc : List Char)
    (hacc : ∀ c ∈ acc, c.isDigit = true) :
    ∀ c ∈ Nat.toDigitsCore 10 fuel n acc, c.isDigit = true := by
  induction fuel generalizing n acc with
  | zero => simpa [Nat.toDigitsCore] using hacc
  | succ fuel ih =>
    have hd : (Nat.digitChar (n % 10)).isDigit = true :=
      isDigit_digitChar _ (Nat.mod_lt _ (by decide))
    have hacc' : ∀ c ∈ Nat.digitChar (n % 10) :: acc, c.isDigit = true := by
      intro c hc
      rcases List.mem_cons.mp hc with rfl | hc
      · exact hd
      · exact hacc c hc
    simp only [Nat.toDigitsCore]
    split
    · exact hacc'
    · exact ih _ _ hacc'

theorem isDigit_of_mem_repr (n : Nat) : ∀ c ∈ (Nat.repr n).toList, c.isDigit = true := by
  intro c hc
  have : (Nat.repr n).toList = Nat.toDigitsCore 10 (n + 1) n [] := rfl
  rw [this] at hc
  exact isDigit_of_mem_toDigitsCore _ _ [] (by simp) c hc

theorem isDigit_ne {c d : Char} (h : c.isDigit = true) (hd : d.isDigit = false) : c ≠ d := by
  rintro rfl
  rw [h] at hd
  exact absurd hd (by simp)

theorem mem_matNameOf {k : Nat} {c : Char} (h : c ∈ matNameOf k) :
    c ∈ "mat_".toList ∨ c.isDigit = true := by
  rcases List.mem_append.mp h with h | h
  · exact Or.inl h
  · exact Or.inr (isDigit_of_mem_repr k c h)

theorem matNameOf_ne_of_not_digit {k : Nat} {c d : Char} (h : c ∈ matNameOf k)
    (hd : d.isDigit = false) (hlit : ∀ x ∈ "mat_".toList, x ≠ d) : c ≠ d := by
  rcases mem_matNameOf h with h | h
  · exact hlit c h
  · exact isDigit_ne h hd

theorem isGeometryChar_ne {c d : Char} (h : isGeometryChar c = true)
    (hd : isGeometryChar d = false) : c ≠ d := by
  rintro rfl
  rw [h] at hd
  exact absurd hd (by simp)

/-! ## Mesh text: the modelled exporter -/

theorem exporterChild_named (geometryText : Mesh → JsString) (mesh : Mesh) (k : Nat)
    (hk : mesh.material.name = matNameOf k) :
    exporterChild geometryText mesh
      = "o \n".toList ++ ("usemtl ".toList ++ matNameOf k ++ "\n".toList) ++ geometryText mesh := by
  have : matNameOf k ≠ [] := by simp [matNameOf]
  simp [exporterChild, hk, this]

theorem not_mem_exporterParse (geometryText : Mesh → JsString) (group : List Mesh) (d : Char)
    (hgeom : ∀ mesh, ∀ c ∈ geometryText mesh, isGeometryChar c = true)
    (hnamed : NamedGroup group) (hd1 : isGeometryChar d = false) (hd2 : d.isDigit = false)
    (hd3 : ∀ x ∈ "o \nusemtl mat_".toList, x ≠ d) :
    d ∉ exporterParse geometryText group := by
  intro hmem
  simp only [exporterParse, List.mem_flatMap] at hmem
  obtain ⟨mesh, hmesh, hc⟩ := hmem
  obtain ⟨k, hk⟩ := hnamed mesh hmesh
  rw [exporterChild_named _ _ _ hk] at hc
  simp only [List.mem_append] at hc
  rcases hc with (hc | (hc | hc) | hc) | hc
  · exact hd3 d (by
      have : ∀ x ∈ "o \n".toList, x ∈ "o \nusemtl mat_".toList := by decide
      exact this d hc) rfl
  · exact hd3 d (by
      have : ∀ x ∈ "usemtl ".toList, x ∈ "o \nusemtl mat_".toList := by decide
      exact this d hc) rfl
  · refine matNameOf_ne_of_not_digit hc hd2 (fun x hx => hd3 x ?_) rfl
    have : ∀ x ∈ "mat_".toList, x ∈ "o \nusemtl mat_".toList := by decide
    exact this x hx
  · exact hd3 d (by
      have : ∀ x ∈ "\n".toList, x ∈ "o \nusemtl mat_".toList := by decide
      exact this d hc) rfl
  · exact isGeometryChar_ne (hgeom mesh d hc) hd1 rfl

theorem mem_of_placeholderAt {text : JsString} {i : Nat} (h : PlaceholderAt text i) :
    'M' ∈ text := by
  obtain ⟨m, rest, ⟨ws, -, -, rfl⟩, hdrop, -⟩ := h
  apply List.mem_of_mem_drop (n := i)
  rw [hdrop]
  simp

theorem replacePlaceholders_exporterParse (geometryText : Mesh → JsString) (group : List Mesh)
    (hgeom : ∀ mesh, ∀ c ∈ geometryText mesh, isGeometryChar c = true)
    (hnamed : NamedGroup group) :
    replacePlaceholders (exporterParse geometryText group) = exporterParse geometryText group := by
  apply replacePlaceholders_of_no_placeholder
  intro i h
  exact not_mem_exporterParse geometryText group 'M' hgeom hnamed (by decide) (by decide)
    (by decide) (mem_of_placeholderAt h)

theorem splitLines_ne_nil (s : JsString) : splitLines s ≠ [] := by
  cases s with
  | nil => simp [splitLines]
  | cons c cs =>
    by_cases hc : c = '\n'
    · simp [splitLines, hc]
    · simp only [splitLines, hc, if_false]
      split <;> simp

theorem splitLines_cons_of_ne (c : Char) (cs : JsString) (hc : c ≠ '\n') :
    splitLines (c :: cs)
      = match splitLines cs with
        | [] => [[c]]
        | l :: ls => (c :: l) :: ls := by
  simp only [splitLines, hc, if_false]

theorem splitLines_line (a b : JsString) (ha : ∀ c ∈ a, c ≠ '\n') :
    splitLines (a ++ '\n' :: b) = a :: splitLines b := by
  induction a with
  | nil => simp [splitLines]
  | cons c a ih =>
    have hc : c ≠ '\n' := ha c (by simp)
    rw [List.cons_append, splitLines_cons_of_ne _ _ hc,
      ih fun d hd => ha d (List.mem_cons_of_mem _ hd)]

theorem usemtlName_firstLine (s : JsString) (hs : NoLeadingU s) :
    ∃ l ls, splitLines s = l :: ls ∧ usemtlName l = none := by
  cases s with
  | nil => exact ⟨[], [], rfl, rfl⟩
  | cons c cs =>
    by_cases hc : c = '\n'
    · exact ⟨[], splitLines cs, by simp [splitLines, hc], rfl⟩
    · have hu : 'u' ≠ c := fun e => hs c (by simp) e.symm
      cases hsp : splitLines cs with
      | nil => exact absurd hsp (splitLines_ne_nil cs)
      | cons l ls =>
        refine ⟨c :: l, ls, by simp [splitLines, hc, hsp], ?_⟩
        simp [usemtlName, matchLiteral, hu]

theorem usemtlNames_cons (c : Char) (s : JsString) (hc : c ≠ 'u') (hs : NoLeadingU s) :
    usemtlNames (c :: s) = usemtlNames s := by
  obtain ⟨l, ls, hsp, hl⟩ := usemtlName_firstLine s hs
  by_cases hn : c = '\n'
  · simp [usemtlNames, splitLines, hn, usemtlName, matchLiteral]
  · have hu : 'u' ≠ c := fun e => hc e.symm
    have hcl : usemtlName (c :: l) = none := by simp [usemtlName, matchLiteral, hu]
    simp [usemtlNames, splitLines, hn, hsp, List.filterMap_cons, hl, hcl]

theorem usemtlNames_append_of_ne_u (g rest : JsString) (hg : ∀ c ∈ g, c ≠ 'u')
    (hrest : NoLeadingU rest) : usemtlNames (g ++ rest) = usemtlNames rest := by
  induction g with
  | nil => rfl
  | cons c g ih =>
    have hg' : ∀ d ∈ g, d ≠ 'u' := fun d hd => hg d (List.mem_cons_of_mem _ hd)
    rw [List.cons_append, usemtlNames_cons c _ (hg c (by simp)), ih hg']
    intro d hd
    cases g with
    | nil => exact hrest d (by simpa using hd)
    | cons e g =>
      have : d = e := by simpa using hd.symm
      exact this ▸ hg' e (by simp)

theorem noLeadingU_exporterParse (geometryText : Mesh → JsString) (group : List Mesh) :
    NoLeadingU (exporterParse geometryText group) := by
  intro c hc
  cases group with
  | nil => simp [exporterParse] at hc
  | cons mesh group =>
    have : c = 'o' := by
      simpa [exporterParse, exporterChild] using hc.symm
    subst this
    decide

theorem usemtlNames_exporterParse (geometryText : Mesh → JsString) (group : List Mesh)
    (hgeom : ∀ mesh, ∀ c ∈ geometryText mesh, isGeometryChar c = true)
    (hnamed : NamedGroup group) :
    usemtlNames (exporterParse geometryText group)
      = group.map fun mesh => mesh.material.name := by
  induction group with
  | nil => rfl
  | cons mesh group ih =>
    obtain ⟨k, hk⟩ := hnamed mesh (by simp)
    have hnamed' : NamedGroup group := fun m hm => hnamed m (List.mem_cons_of_mem _ hm)
    have htext : exporterParse geometryText (mesh :: group)
        = "o ".toList ++ '\n' :: (("usemtl ".toList ++ matNameOf k) ++ '\n' ::
            (geometryText mesh ++ exporterParse geometryText group)) := by
      simp [exporterParse, exporterChild_named _ _ _ hk]
    have hname : ∀ c ∈ "usemtl ".toList ++ matNameOf k, c ≠ '\n' := by
      intro c hc
      rcases List.mem_append.mp hc with hc | hc
      · have : ∀ x ∈ "usemtl ".toList, x ≠ '\n' := by decide
        exact this c hc
      · exact matNameOf_ne_of_not_digit hc (by decide) (by decide)
    have hg : ∀ c ∈ geometryText mesh, c ≠ 'u' := fun c hc =>
      isGeometryChar_ne (hgeom mesh c hc) (by decide)
    have hrest := usemtlNames_append_of_ne_u (geometryText mesh)
      (exporterParse geometryText group) hg (noLeadingU_exporterParse _ _)
    rw [htext, usemtlNames, splitLines_line _ _ (by decide), splitLines_line _ _ hname]
    simp only [List.filterMap_cons, List.map_cons]
    have h1 : usemtlName "o ".toList = none := by decide
    have h2 : usemtlName ("usemtl ".toList ++ matNameOf k) = some (matNameOf k) :=
      matchLiteral_append _ _
    rw [h1, h2]
    simp only
    rw [hk]
    congr 1
    rw [← ih hnamed', ← hrest]
    rfl

/-! ## Mesh text and rewrite -/

theorem namedGroup_exportLoop (blocks : List Mesh) : NamedGroup (exportLoop blocks).towerGroup := by
  rw [exportLoop_eq_spec]
  intro mesh hmesh
  simp only [exportLoopSpec, List.mem_map] at hmesh
  obtain ⟨b, -, rfl⟩ := hmesh
  exact ⟨_, rfl⟩

theorem names_of_three_keys (blocks : List Mesh)
    (hkeys : hexKeys blocks = ["ff0000".toList, "00ff00".toList, "ff0000".toList]) :
    blocks.map (fun b => "mat_".toList
        ++ (Nat.repr (firstIndex (hexOf b) (hexKeys (firstCubes blocks)))).toList)
      = ["mat_0".toList, "mat_1".toList, "mat_0".toList] := by
  rcases blocks with _ | ⟨b1, _ | ⟨b2, _ | ⟨b3, _ | ⟨b4, t⟩⟩⟩⟩ <;>
    simp only [hexKeys, List.map_cons, List.map_nil, List.cons.injEq, and_true, and_false,
      reduceCtorEq] at hkeys
  obtain ⟨h1, h2, h3⟩ := hkeys
  have hne : "00ff00".toList ≠ "ff0000".toList := by decide
  have hfirst : firstCubes [b1, b2, b3] = [b1, b2] := by
    simp [firstCubes, firstSeenBy, h1, h2, h3, hne, List.filter_cons]
  rw [hfirst]
  simp only [List.map_cons, List.map_nil, hexKeys, h1, h2, h3, firstIndex, List.findIdx_cons,
    List.findIdx_nil]
  decide

theorem sampleGeometry_chars (mesh : Mesh) :
    ∀ c ∈ sampleGeometry mesh, isGeometryChar c = true := by
  show ∀ c ∈ "v 0 0 0\n".toList, isGeometryChar c = true
  decide

/-- C2. With the exporter writing, for every child in group order, an object
line, one line `usemtl <material name>` and geometry records made of
numerals, the mesh text is the line `mtllib tower.mtl` followed by the
exporter's text as it is; its `usemtl` lines are as many as the cubes, and the
`i`-th names the material of the clone of the `i`-th cube, `mat_k` for the
position `k` of its hex key among the distinct keys. For cubes with the keys
`ff0000`, `00ff00`, `ff0000` the names are `mat_0`, `mat_1`, `mat_0`. -/
theorem mesh_text_references (geometryText : Mesh → JsString) (blocks : List Mesh)
    (hgeom : ∀ mesh, ∀ c ∈ geometryText mesh, isGeometryChar c = true) :
    (exportTowerOBJ (exporterParse geometryText) blocks).objText
      = "mtllib tower.mtl\n".toList
        ++ exporterParse geometryText (exportLoop blocks).towerGroup ∧
    (splitLines (exportTowerOBJ (exporterParse geometryText) blocks).objText).head?
      = some "mtllib tower.mtl".toList ∧
    usemtlNames (exportTowerOBJ (exporterParse geometryText) blocks).objText
      = (exportLoop blocks).towerGroup.map (fun mesh => mesh.material.name) ∧
    usemtlNames (exportTowerOBJ (exporterParse geometryText) blocks).objText
      = blocks.map (fun b => "mat_".toList
          ++ (Nat.repr (firstIndex (hexOf b) (hexKeys (firstCubes blocks)))).toList) ∧
    (usemtlNames (exportTowerOBJ (exporterParse geometryText) blocks).objText).length
      = blocks.length ∧
    (hexKeys blocks = ["ff0000".toList, "00ff00".toList, "ff0000".toList] →
      usemtlNames (exportTowerOBJ (exporterParse geometryText) blocks).objText
        = ["mat_0".toList, "mat_1".toList, "mat_0".toList]) := by
  have hnamed := namedGroup_exportLoop blocks
  have hobj : (exportTowerOBJ (exporterParse geometryText) blocks).objText
      = "mtllib tower.mtl".toList
        ++ '\n' :: exporterParse geometryText (exportLoop blocks).towerGroup := by
    simp only [exportTowerOBJ, rewriteObj]
    rw [replacePlaceholders_exporterParse _ _ hgeom hnamed]
    rfl
  have hlines := splitLines_line "mtllib tower.mtl".toList
    (exporterParse geometryText (exportLoop blocks).towerGroup) (by decide)
  have hnames : usemtlNames (exportTowerOBJ (exporterParse geometryText) blocks).objText
      = (exportLoop blocks).towerGroup.map (fun mesh => mesh.material.name) := by
    rw [hobj, usemtlNames, hlines, List.filterMap_cons,
      show usemtlName "mtllib tower.mtl".toList = none by decide]
    exact usemtlNames_exporterParse _ _ hgeom hnamed
  have hnames' : usemtlNames (exportTowerOBJ (exporterParse geometryText) blocks).objText
      = blocks.map (fun b => "mat_".toList
          ++ (Nat.repr (firstIndex (hexOf b) (hexKeys (firstCubes blocks)))).toList) := by
    rw [hnames, exportLoop_eq_spec]
    simp [exportLoopSpec, cloneNamed, matNameOf]
  refine ⟨?_, ?_, hnames, hnames', ?_, ?_⟩
  · rw [hobj]; simp
  · rw [hobj, hlines]; rfl
  · rw [hnames']; simp
  · intro hkeys
    rw [hnames']
    exact names_of_three_keys blocks hkeys

theorem mesh_text_references_witness :
    (∀ mesh, ∀ c ∈ sampleGeometry mesh, isGeometryChar c = true) ∧
    usemtlNames
        (exportTowerOBJ (exporterParse sampleGeometry)
          [cubeOf red, cubeOf green, cubeOf red]).objText
      = ["mat_0".toList, "mat_1".toList, "mat_0".toList] :=
  ⟨sampleGeometry_chars,
    (mesh_text_references sampleGeometry [cubeOf red, cubeOf green, cubeOf red]
      sampleGeometry_chars).2.2.2.2.2 rfl⟩

/-- C9. Let the exporter's text be `pre ++ m ++ post`, where `m` is a
placeholder reference (`usemtl`, white space, `MeshStandardMaterial`) and no
placeholder reference starts inside `pre`. The rewrite keeps `pre`, then
writes `usemtl ` followed by the material name of the first reference
`usemtl mat_<digits>` of `post` when `post` has one, and `m` itself when
`post` has none, and goes on in the same way with `post`; one of the two cases
always holds. A text without any placeholder reference comes back unchanged
behind the line `mtllib tower.mtl`. The mesh text of the export is this
rewrite of the exporter's text, whatever the cubes are. -/
theorem rewrite_placeholders (pre m post : JsString) (hm : IsPlaceholder m)
    (hpre : ∀ i < pre.length, ¬ PlaceholderAt (pre ++ m ++ post) i) :
    (∀ name, FirstReferenceIs post name →
      rewriteObj (pre ++ m ++ post)
        = "mtllib tower.mtl\n".toList
          ++ (pre ++ ("usemtl ".toList ++ name) ++ replacePlaceholders post)) ∧
    (NoReference post →
      rewriteObj (pre ++ m ++ post)
        = "mtllib tower.mtl\n".toList ++ (pre ++ m ++ replacePlaceholders post)) ∧
    ((∃ name, FirstReferenceIs post name) ∨ NoReference post) ∧
    (∀ text, (∀ i, ¬ PlaceholderAt text i) →
      rewriteObj text = "mtllib tower.mtl\n".toList ++ text) ∧
    (∀ (parse : List Mesh → JsString) (blocks : List Mesh),
      (exportTowerOBJ parse blocks).objText = rewriteObj (parse (exportLoop blocks).towerGroup)) := by
  have hsplit := replacePlaceholders_split pre m post hm hpre
  refine ⟨?_, ?_, ?_, ?_, fun _ _ => rfl⟩
  · intro name hname
    rw [(firstReference_eq_some_iff post name).mpr hname] at hsplit
    rw [rewriteObj, hsplit]
  · intro hnone
    rw [(firstReference_eq_none_iff post).mpr hnone] at hsplit
    rw [rewriteObj, hsplit]
  · cases hf : firstReference post with
    | none => exact Or.inr ((firstReference_eq_none_iff post).mp hf)
    | some name => exact Or.inl ⟨name, (firstReference_eq_some_iff post name).mp hf⟩
  · intro text htext
    rw [rewriteObj, replacePlaceholders_of_no_placeholder text htext]

theorem rewrite_placeholders_witness :
    IsPlaceholder "usemtl MeshStandardMaterial".toList ∧
    (∀ i < "o \n".toList.length,
      ¬ PlaceholderAt
        ("o \n".toList ++ "usemtl MeshStandardMaterial".toList ++ "\nv 1\nusemtl mat_7\n".toList)
        i) ∧
    FirstReferenceIs "\nv 1\nusemtl mat_7\n".toList "mat_7".toList ∧
    rewriteObj
        ("o \n".toList ++ "usemtl MeshStandardMaterial".toList ++ "\nv 1\nusemtl mat_7\n".toList)
      = "mtllib tower.mtl\no \nusemtl mat_7\nv 1\nusemtl mat_7\n".toList := by
  have hm : IsPlaceholder "usemtl MeshStandardMaterial".toList :=
    ⟨[' '], by simp, by decide, by decide⟩
  have hpre : ∀ i < "o \n".toList.length,
      ¬ PlaceholderAt
        ("o \n".toList ++ "usemtl MeshStandardMaterial".toList ++ "\nv 1\nusemtl mat_7\n".toList)
        i := by
    intro i hi
    rw [placeholderAt_iff, not_not]
    revert i
    decide
  have hfirst : FirstReferenceIs "\nv 1\nusemtl mat_7\n".toList "mat_7".toList :=
    (firstReference_eq_some_iff _ _).mp (by decide)
  refine ⟨hm, hpre, hfirst, ?_⟩
  rw [(rewrite_placeholders _ _ _ hm hpre).1 _ hfirst]
  decide

end MAADg
